import Mathlib

/-! The parquet-go writer: the JSON writer constructor and the write path.

A shallow embedding of `writer/json.go` (`NewJSONWriter`) together with the
parts of the write path that the constructor hands its result to.

Conventions of the embedding.

* Go `int64` values are `Int`; none of the code below does arithmetic that can
  overflow.
* A Go `error` is `Option Error`, `none` being `nil`.
* A Go pointer result that may be `nil` is an `Option`.
* A byte sink (`source.ParquetFile`) is a state machine: a state and a
  transition function for `Write`. The record of the `Write` calls made so far
  is carried along as ghost state.
* A run that dereferences a nil pointer panics; a function that can panic
  returns `Option`, with `none` for the panic.
-/

namespace ParquetGo

/-! ## Bytes, errors and the byte sink -/

/-- One byte, as a natural number below 256. -/
abbrev Byte := Nat

/-- A Go `error` value. Two errors are the same error when they are equal. -/
structure Error where
  msg : String
  deriving DecidableEq

/-- The four magic bytes `'P','A','R','1'`, that is `[]byte("PAR1")`. -/
def PAR1 : List Byte := [80, 65, 82, 49]

/-- The `source.ParquetFile` interface, restricted to `Write`, the only method
the write path calls. `write` is the behaviour of the implementation on its
current `state`; it returns the next state, the count `n` and the error.
`calls` is ghost state: the arguments of the `Write` calls made so far, oldest
first. -/
structure ParquetFile (σ : Type) where
  state : σ
  write : σ → List Byte → σ × Int × Option Error
  calls : List (List Byte)

/-- The call `pf.Write(data)`: the sink after the call, `n` and `err`. -/
def ParquetFile.Write {σ : Type} (pf : ParquetFile σ) (data : List Byte) :
    ParquetFile σ × Int × Option Error :=
  let r := pf.write pf.state data
  ({ pf with state := r.1, calls := pf.calls ++ [data] }, r.2.1, r.2.2)

/-- A sink accepts writes in full when every `Write(p)` returns `(len(p), nil)`,
in every state. -/
def ParquetFile.AcceptsInFull {σ : Type} (pf : ParquetFile σ) : Prop :=
  ∀ (s : σ) (p : List Byte), (pf.write s p).2 = ((p.length : Int), none)

/-! ## Thrift metadata (package `parquet`) -/

/-- Physical types of the format. -/
inductive PhysicalType where
  | BOOLEAN | INT32 | INT64 | INT96 | FLOAT | DOUBLE | BYTE_ARRAY | FIXED_LEN_BYTE_ARRAY
  deriving DecidableEq

/-- Repetition kinds of a schema node. -/
inductive FieldRepetitionType where
  | REQUIRED | OPTIONAL | REPEATED
  deriving DecidableEq

/-- Compression codecs, by codec id; `UNCOMPRESSED` is id 0. -/
inductive CompressionCodec where
  | UNCOMPRESSED | SNAPPY | GZIP | LZO | BROTLI | LZ4 | ZSTD | LZ4_RAW
  deriving DecidableEq

/-- Modelled from the spec: `parquet.SchemaElement` (generated thrift code, not
among the sources). A node of the column tree: its name, repetition, and either
a positive number of children (group) or a physical type (leaf). -/
structure SchemaElement where
  Name : String
  RepetitionType : Option FieldRepetitionType
  NumChildren : Option Int
  PhysType : Option PhysicalType
  TypeLength : Option Int
  Precision : Option Int
  Scale : Option Int
  deriving DecidableEq

/-- Modelled from the spec: the optional per-chunk index locations of
`parquet.ColumnChunk` together with the leaf the chunk belongs to and its
pages' value counts (generated thrift code, not among the sources). -/
structure ColumnChunk where
  PathInSchema : List String
  NumValues : Int
  DataPageOffset : Int
  ColumnIndexOffset : Option Int
  ColumnIndexLength : Option Int
  OffsetIndexOffset : Option Int
  OffsetIndexLength : Option Int
  deriving DecidableEq

/-- Modelled from the spec: `parquet.RowGroup`: ordered column chunks, one per
leaf, and the number of rows. -/
structure RowGroup where
  Columns : List ColumnChunk
  NumRows : Int
  deriving DecidableEq

/-- Modelled from the spec: `parquet.FileMetaData`, the file footer. -/
structure FileMetaData where
  Version : Int
  Schema : List SchemaElement
  NumRows : Int
  RowGroups : List RowGroup
  deriving DecidableEq

/-- Modelled from the spec: `parquet.NewFileMetaData` (generated thrift code,
not among the sources) returns a footer with every field at its zero value:
version 0, no schema element, no row, no row group. -/
def NewFileMetaData : FileMetaData :=
  { Version := 0, Schema := [], NumRows := 0, RowGroups := [] }

/-! ## Values, triples and leaves -/

/-- Modelled from the spec: the closed variant of admitted values (§9). `Null`
is the absence of a value. Floating-point values are carried as their bit
patterns; nothing below computes with them. -/
inductive Value where
  | Bool (b : Bool)
  | I32 (n : Int)
  | I64 (n : Int)
  | I96 (n : Int)
  | F32 (bits : Nat)
  | F64 (bits : Nat)
  | Bytes (b : List Byte)
  | FixedBytes (b : List Byte)
  deriving DecidableEq

/-- The physical type a value fits. -/
def Value.physicalType : Value → PhysicalType
  | .Bool _ => .BOOLEAN
  | .I32 _ => .INT32
  | .I64 _ => .INT64
  | .I96 _ => .INT96
  | .F32 _ => .FLOAT
  | .F64 _ => .DOUBLE
  | .Bytes _ => .BYTE_ARRAY
  | .FixedBytes _ => .FIXED_LEN_BYTE_ARRAY

/-- Modelled from the spec: a triple `(value, R, D)` (§3). -/
structure Triple where
  value : Option Value
  R : Nat
  D : Nat
  deriving DecidableEq

/-- Modelled from the spec: the leaf info the schema handler stores for each
leaf (§3): the path from the root, each name with the repetition of its node,
the physical type, and the flags. -/
structure LeafInfo where
  path : List (String × FieldRepetitionType)
  physType : PhysicalType
  omitstats : Bool
  omitMinMax : Bool
  dictionaryEligible : Bool
  deriving DecidableEq

/-- The maximal repetition level: the number of REPEATED nodes on the path. -/
def maxRof (path : List (String × FieldRepetitionType)) : Nat :=
  path.countP (fun p => p.2 = .REPEATED)

/-- The maximal definition level: the number of non-REQUIRED nodes on the
path. -/
def maxDof (path : List (String × FieldRepetitionType)) : Nat :=
  path.countP (fun p => p.2 ≠ .REQUIRED)

/-- The leaf's `max_R`. -/
def LeafInfo.maxR (l : LeafInfo) : Nat := maxRof l.path

/-- The leaf's `max_D`. -/
def LeafInfo.maxD (l : LeafInfo) : Nat := maxDof l.path

/-- Modelled from the spec: the schema handler (package `schema`, not among
the sources): the flattened pre-order list of schema elements, and the leaf
infos it caches, in schema order. -/
structure SchemaHandler where
  SchemaElements : List SchemaElement
  Leaves : List LeafInfo
  deriving DecidableEq

/-- Modelled from the spec: `parquet.ColumnIndex`: one entry per page in each
of the lists; `NullCounts` is optional. -/
structure ColumnIndex where
  NullPages : List Bool
  MinValues : List (List Byte)
  MaxValues : List (List Byte)
  NullCounts : Option (List Int)
  deriving DecidableEq

/-- Modelled from the spec: one page location of an `OffsetIndex` (§4.4). -/
structure PageLocation where
  Offset : Int
  CompressedPageSize : Int
  FirstRowIndex : Int
  deriving DecidableEq

/-- Modelled from the spec: `parquet.OffsetIndex`: one entry per page. -/
structure OffsetIndex where
  PageLocations : List PageLocation
  deriving DecidableEq

/-- Modelled from the spec: `layout.Page`, a page held in the writer's page
map: the triples it carries. -/
structure Page where
  triples : List Triple
  deriving DecidableEq

/-- Modelled from the spec: `layout.DictRecType`, the dictionary being built
for a chunk: its values in insertion order. -/
structure DictRecType where
  values : List Value
  deriving DecidableEq

/-! ## The writer -/

/-- The marshalling function a writer is configured with, by name. -/
inductive MarshalFunc where
  | MarshalJSON
  | Marshal
  | MarshalCSV
  deriving DecidableEq

/-- Modelled from the spec: the writer's state (§4.7). A writer that has not
been stopped and has not failed is `Open` before its first successful `Write`
and `Writing` after it. -/
inductive WriterState where
  | Open
  | Writing
  | Stopped
  | Failed (e : Error)
  deriving DecidableEq

/-- Modelled from the spec: the `ParquetWriter` struct (declared in
`writer/writer.go`, not among the sources). The fields down to `MarshalFunc`
are the ones `NewJSONWriter` assigns; `ColumnIndexes` and `OffsetIndexes` are
read by the tests; `DisableColumnIndex` is the flag of the option
`WithDisableColumnIndex`; `State`, `Bufs`, `BufRows` and `BufSize` are the
state of §4.7 and the per-leaf page-builder buffers of §4.3 and §4.5. -/
structure ParquetWriter (σ : Type) where
  SchemaHandler : Option SchemaHandler
  PFile : Option (ParquetFile σ)
  PageSize : Int
  RowGroupSize : Int
  CompressionType : CompressionCodec
  PagesMapBuf : Option (List (String × List Page))
  DictRecs : Option (List (String × DictRecType))
  NP : Int
  Footer : Option FileMetaData
  Offset : Int
  MarshalFunc : Option MarshalFunc
  ColumnIndexes : List ColumnIndex
  OffsetIndexes : List OffsetIndex
  DisableColumnIndex : Bool
  State : WriterState
  Bufs : List (List Triple)
  BufRows : Int
  BufSize : Int

/-- The zero value of the struct, as `new` allocates it. -/
def ParquetWriter.zero {σ : Type} : ParquetWriter σ :=
  { SchemaHandler := none, PFile := none, PageSize := 0, RowGroupSize := 0,
    CompressionType := .UNCOMPRESSED, PagesMapBuf := none, DictRecs := none, NP := 0,
    Footer := none, Offset := 0, MarshalFunc := none, ColumnIndexes := [],
    OffsetIndexes := [], DisableColumnIndex := false, State := .Open, Bufs := [],
    BufRows := 0, BufSize := 0 }

/-- A writer option, `func(*ParquetWriter)`: it updates the writer in place. -/
abbrev ParquetWriterOption (σ : Type) := ParquetWriter σ → ParquetWriter σ

/-- Modelled from the spec: the option `WithDisableColumnIndex` (declared in
`writer/writer.go`, not among the sources) sets the writer's flag that
suppresses `ColumnIndex` and `OffsetIndex` emission (§6). -/
def WithDisableColumnIndex {σ : Type} (disable : Bool) : ParquetWriterOption σ :=
  fun pw => { pw with DisableColumnIndex := disable }

/-- The struct `JSONWriter`, which embeds a `ParquetWriter`. -/
structure JSONWriter (σ : Type) where
  ParquetWriter : ParquetWriter σ

/-- The loop `for _, opt := range opts { opt(&res.ParquetWriter) }`. -/
def applyOpts {σ : Type} (opts : List (ParquetWriterOption σ)) (pw : ParquetWriter σ) :
    ParquetWriter σ :=
  opts.foldl (fun w opt => opt w) pw

/-- What a call of `NewJSONWriter` leaves behind when it returns: the two
results, and the sink `pfile` as the call left it. -/
structure NewJSONWriterResult (σ : Type) where
  res : Option (JSONWriter σ)
  err : Option Error
  pfile : ParquetFile σ

/-- The constructor `NewJSONWriter` of `writer/json.go`. The schema parser
`schema.NewSchemaHandlerFromJSON` is not among the sources and is a parameter:
it returns a handler pointer and an error. The result is `none` when the run
panics, which it does when the parser returns a nil handler with a nil error
(the read of `res.SchemaHandler.SchemaElements`). The writer holds the sink by
reference, so after the header write its `PFile` is the sink as that write
left it. -/
def NewJSONWriter {σ : Type}
    (NewSchemaHandlerFromJSON : String → Option SchemaHandler × Option Error)
    (jsonSchema : String) (pfile : ParquetFile σ) (np : Int)
    (opts : List (ParquetWriterOption σ)) : Option (NewJSONWriterResult σ) :=
  let res : JSONWriter σ := ⟨applyOpts opts ParquetWriter.zero⟩
  let parsed := NewSchemaHandlerFromJSON jsonSchema
  let res : JSONWriter σ := ⟨{ res.ParquetWriter with SchemaHandler := parsed.1 }⟩
  match parsed.2 with
  | some err => some { res := some res, err := some err, pfile := pfile }
  | none =>
    match res.ParquetWriter.SchemaHandler with
    | none => none
    | some sh =>
      let footer : FileMetaData := NewFileMetaData
      let footer : FileMetaData := { footer with Version := 1 }
      let footer : FileMetaData := { footer with Schema := footer.Schema ++ sh.SchemaElements }
      let w : ParquetWriter σ :=
        { res.ParquetWriter with
            PFile := some pfile
            PageSize := 8 * 1024
            RowGroupSize := 128 * 1024 * 1024
            CompressionType := .SNAPPY
            PagesMapBuf := some []
            DictRecs := some []
            NP := np
            Footer := some footer
            Offset := 4 }
      let r := pfile.Write PAR1
      let w : ParquetWriter σ := { w with PFile := some r.1, MarshalFunc := some .MarshalJSON }
      some { res := some ⟨w⟩, err := r.2.2, pfile := r.1 }

/-! ## The marshaller (§4.2) -/

/-- Modelled from the spec: an input record, as the adapters hand it to the
marshaller: a tree of groups, lists (the items of a repeated field), values
and nulls. -/
inductive Node where
  | null
  | prim (v : Value)
  | group (fields : List (String × Node))
  | list (items : List Node)

/-- Modelled from the spec: the marshaller's failure `TypeMismatch` (§4.2). -/
def errTypeMismatch : Error := ⟨"TypeMismatch"⟩

/-- Modelled from the spec: the marshaller's failure `RequiredFieldMissing`
(§4.2). -/
def errRequiredFieldMissing : Error := ⟨"RequiredFieldMissing"⟩

/-- Modelled from the spec: the marshaller's failure `PathUnknown` (§4.2). -/
def errPathUnknown : Error := ⟨"PathUnknown"⟩

/-- The results of a list of runs: all of them when none failed, else the
first failure. -/
def allOk {α : Type} : List (Except Error α) → Except Error (List α)
  | [] => .ok []
  | .error e :: _ => .error e
  | .ok a :: rest =>
    match allOk rest with
    | .ok as => .ok (a :: as)
    | .error e => .error e

/-- The field `name` of a group's field list, if the group has it. -/
def lookupField (name : String) : List (String × Node) → Option Node
  | [] => none
  | (k, v) :: rest => if k = name then some v else lookupField name rest

/-- Modelled from the spec: the shredding of one record for one leaf (§4.2).
`path` is what is left of the leaf's path below `node`; `rl` is the number of
repeated nodes above, `r` the repetition level the next triple carries and `d`
the definition level reached.

* At the end of the path the node must be a value of the leaf's type.
* A REQUIRED field: no level bump, the value must be present.
* An OPTIONAL field: if present, go on one definition level deeper; if absent,
  one null triple at the parent's definition level, and no descent.
* A REPEATED field with `k` items: the first item inherits `r`, the later ones
  carry the field's own level `rl + 1`; an empty list gives a single null
  triple at the parent's definition level. -/
def shred (ty : PhysicalType) :
    List (String × FieldRepetitionType) → Nat → Nat → Nat → Node → Except Error (List Triple)
  | [], _, r, d, node =>
    match node with
    | .prim v => if v.physicalType = ty then .ok [⟨some v, r, d⟩] else .error errTypeMismatch
    | _ => .error errTypeMismatch
  | (name, rep) :: rest, rl, r, d, node =>
    match node with
    | .group fields =>
      match rep with
      | .REQUIRED =>
        match lookupField name fields with
        | none => .error errRequiredFieldMissing
        | some .null => .error errRequiredFieldMissing
        | some v => shred ty rest rl r d v
      | .OPTIONAL =>
        match lookupField name fields with
        | none => .ok [⟨none, r, d⟩]
        | some .null => .ok [⟨none, r, d⟩]
        | some v => shred ty rest rl r (d + 1) v
      | .REPEATED =>
        match lookupField name fields with
        | none => .ok [⟨none, r, d⟩]
        | some .null => .ok [⟨none, r, d⟩]
        | some (.list []) => .ok [⟨none, r, d⟩]
        | some (.list (x :: xs)) =>
          match shred ty rest (rl + 1) r (d + 1) x with
          | .error e => .error e
          | .ok first =>
            match allOk (xs.map (shred ty rest (rl + 1) (rl + 1) (d + 1))) with
            | .error e => .error e
            | .ok later => .ok (first ++ later.flatten)
        | some _ => .error errTypeMismatch
    | _ => .error errPathUnknown

/-- Modelled from the spec: the triples one record gives one leaf, shredded
from the root with all levels at 0. -/
def shredLeaf (l : LeafInfo) (rec : Node) : Except Error (List Triple) :=
  shred l.physType l.path 0 0 0 rec

/-- Modelled from the spec: the marshaller on one record (§4.2): the triples
of every leaf, in schema order, or the first failure. -/
def marshal (leaves : List LeafInfo) (rec : Node) : Except Error (List (List Triple)) :=
  allOk (leaves.map (fun l => shredLeaf l rec))

/-! ## The page builder and the chunk assembler (§4.3, §4.4) -/

/-- Modelled from the spec: what the spec leaves to the implementation, taken
as parameters: the size estimator of the page threshold, the point at which a
chunk's dictionary falls out of eligibility (on the triples of the chunk seen
so far), the bytes of `min` and `max` over the non-null values of a page (by
the type's ordering, after truncation), the encoders of pages, of the index
blocks and of the footer, and the size estimate of a record. -/
structure Encoders where
  estSize : Value → Nat
  dictFallsBack : List Triple → Bool
  minMaxBytes : PhysicalType → List Value → List Byte × List Byte
  dictPageBytes : LeafInfo → List Triple → List Byte
  dataPageBytes : LeafInfo → CompressionCodec → List Triple → List Byte
  columnIndexBytes : ColumnIndex → List Byte
  offsetIndexBytes : OffsetIndex → List Byte
  footerBytes : FileMetaData → List Byte
  recordSize : Node → Nat

/-- Modelled from the spec: the estimated size a triple adds to its page:
that of its value; levels are excluded from the threshold (§4.3). -/
def tripleSize (enc : Encoders) (t : Triple) : Nat :=
  match t.value with
  | some v => enc.estSize v
  | none => 0

/-- Modelled from the spec: the slicing of one leaf's triples into data pages
(§4.3). `seen` are the triples of the chunk taken so far, `acc` the estimated
size of the values of the page under construction, `cur` that page. A page is
emitted when the estimate exceeds `pageSize`, when the dictionary of an
eligible leaf falls back, and at the end of the chunk if triples are left. -/
def slicePages (enc : Encoders) (l : LeafInfo) (pageSize : Int) :
    List Triple → Nat → List Triple → List Triple → List (List Triple)
  | _, _, cur, [] => if cur = [] then [] else [cur]
  | seen, acc, cur, t :: ts =>
    if pageSize < ((acc + tripleSize enc t : Nat) : Int) ∨
        (l.dictionaryEligible = true ∧ enc.dictFallsBack (seen ++ [t]) = true) then
      (cur ++ [t]) :: slicePages enc l pageSize (seen ++ [t]) 0 [] ts
    else
      slicePages enc l pageSize (seen ++ [t]) (acc + tripleSize enc t) (cur ++ [t]) ts

/-- Modelled from the spec: the data pages of a chunk: its triples, sliced. -/
def chunkPages (enc : Encoders) (l : LeafInfo) (pageSize : Int) (ts : List Triple) :
    List (List Triple) :=
  slicePages enc l pageSize [] 0 [] ts

/-- Modelled from the spec: the `null_count` of a page, the count of its
triples with `D < max_D`. -/
def pageNullCount (l : LeafInfo) (page : List Triple) : Int :=
  ((page.countP (fun t => t.D < l.maxD) : Nat) : Int)

/-- Modelled from the spec: a page is a null page iff it contains only null
triples, those without a value. -/
def isNullPage (page : List Triple) : Bool :=
  page.all (fun t => t.value.isNone)

/-- The non-null values of a page. -/
def pageValues (page : List Triple) : List Value :=
  page.filterMap (fun t => t.value)

/-- Modelled from the spec: the `min_value_bytes` and `max_value_bytes` of a
page's entry in the column index: empty for a null page, and for a leaf whose
flags keep min and max out of the index; else computed over the non-null
values. -/
def pageMinMax (enc : Encoders) (l : LeafInfo) (page : List Triple) : List Byte × List Byte :=
  if isNullPage page = true ∨ l.omitstats = true ∨ l.omitMinMax = true then ([], [])
  else enc.minMaxBytes l.physType (pageValues page)

/-- Modelled from the spec: the `ColumnIndex` of a chunk: for every page one
entry `(is_null_page, min_value_bytes, max_value_bytes, null_count)`; with
`omitstats` the null counts are not set. -/
def buildColumnIndex (enc : Encoders) (l : LeafInfo) (pages : List (List Triple)) : ColumnIndex :=
  { NullPages := pages.map isNullPage
    MinValues := pages.map (fun p => (pageMinMax enc l p).1)
    MaxValues := pages.map (fun p => (pageMinMax enc l p).2)
    NullCounts := if l.omitstats = true then none else some (pages.map (pageNullCount l)) }

/-- Modelled from the spec: the page locations of a chunk's `OffsetIndex`
(§4.4): the file offset of each page, its size, and the row number of its
first top-level row (a triple with `R = 0`). -/
def pageLocations (enc : Encoders) (l : LeafInfo) (codec : CompressionCodec) :
    Int → Int → List (List Triple) → List PageLocation
  | _, _, [] => []
  | off, row, p :: ps =>
    let size : Int := ((enc.dataPageBytes l codec p).length : Int)
    ⟨off, size, row⟩ ::
      pageLocations enc l codec (off + size) (row + ((p.countP (fun t => t.R = 0) : Nat) : Int)) ps

/-! ## The row-group flusher and the file assembler (§4.5, §4.6, §4.7) -/

/-- Modelled from the spec: the error of an operation invoked in the wrong
state, `StateError` (§7). -/
def errState : Error := ⟨"StateError"⟩

/-- Modelled from the spec: one sequential write of `data` to the writer's
sink (§4.6, §7). On success the tracked offset advances by the length of
`data`; a failure of the sink takes the writer to `Failed` with the sink's
error. A writer without a sink was never opened: the operation is a
`StateError` and leaves it unchanged. -/
def emit {σ : Type} (w : ParquetWriter σ) (data : List Byte) : ParquetWriter σ × Option Error :=
  match w.PFile with
  | none => (w, some errState)
  | some pf =>
    let r := pf.Write data
    match r.2.2 with
    | some e => ({ w with PFile := some r.1, State := .Failed e }, some e)
    | none => ({ w with PFile := some r.1, Offset := w.Offset + (data.length : Int) }, none)

/-- Modelled from the spec: the assembly of one column chunk (§4.4): the
dictionary page, if any, then the data pages, written at the current offset;
the chunk's metadata; and, unless the index is disabled, the chunk's
`ColumnIndex` and `OffsetIndex`, appended to the writer's lists. -/
def flushChunk {σ : Type} (enc : Encoders) (w : ParquetWriter σ) (l : LeafInfo)
    (ts : List Triple) : ParquetWriter σ × Option ColumnChunk × Option Error :=
  let pages := chunkPages enc l w.PageSize ts
  let dict := enc.dictPageBytes l ts
  let body := dict ++ (pages.map (enc.dataPageBytes l w.CompressionType)).flatten
  let start := w.Offset
  match emit w body with
  | (w1, some e) => (w1, none, some e)
  | (w1, none) =>
    let chunk : ColumnChunk :=
      { PathInSchema := l.path.map (fun p => p.1)
        NumValues := (ts.length : Int)
        DataPageOffset := start + (dict.length : Int)
        ColumnIndexOffset := none
        ColumnIndexLength := none
        OffsetIndexOffset := none
        OffsetIndexLength := none }
    let w2 : ParquetWriter σ :=
      if w1.DisableColumnIndex = true then w1
      else
        { w1 with
            ColumnIndexes := w1.ColumnIndexes ++ [buildColumnIndex enc l pages]
            OffsetIndexes := w1.OffsetIndexes ++
              [⟨pageLocations enc l w.CompressionType (start + (dict.length : Int)) 0 pages⟩] }
    (w2, some chunk, none)

/-- Modelled from the spec: the chunks of a row group, one per leaf, in schema
order; the first failure stops the flush (§4.5). -/
def flushChunks {σ : Type} (enc : Encoders) :
    ParquetWriter σ → List (LeafInfo × List Triple) → ParquetWriter σ × List ColumnChunk × Option Error
  | w, [] => (w, [], none)
  | w, (l, ts) :: rest =>
    match flushChunk enc w l ts with
    | (w1, some chunk, none) =>
      match flushChunks enc w1 rest with
      | (w2, chunks, err) => (w2, chunk :: chunks, err)
    | (w1, _, err) => (w1, [], err)

/-- Modelled from the spec: the row-group flush (§4.5). With no buffered row
there is no row group to write. Otherwise every leaf's chunk is assembled and
written, a fully populated row group is appended to the footer, and the page
builders are reset. -/
def flushRowGroup {σ : Type} (enc : Encoders) (w : ParquetWriter σ) :
    ParquetWriter σ × Option Error :=
  if w.BufRows = 0 then (w, none)
  else
    match w.SchemaHandler with
    | none => (w, some errState)
    | some sh =>
      match flushChunks enc w (sh.Leaves.zip w.Bufs) with
      | (w1, _, some e) => (w1, some e)
      | (w1, chunks, none) =>
        let rg : RowGroup := { Columns := chunks, NumRows := w.BufRows }
        ({ w1 with
            Footer := w1.Footer.map (fun f =>
              { f with NumRows := f.NumRows + w.BufRows, RowGroups := f.RowGroups ++ [rg] })
            Bufs := sh.Leaves.map (fun _ => [])
            BufRows := 0
            BufSize := 0 }, none)

/-- Modelled from the spec: the per-leaf buffers after the triples of one
more record: each leaf's triples are appended to the leaf's buffer (§4.3). -/
def appendBufs : List (List Triple) → List (List Triple) → List (List Triple)
  | [], ts => ts
  | bs, [] => bs
  | b :: bs, t :: ts => (b ++ t) :: appendBufs bs ts

/-- Modelled from the spec: `Write` (declared in `writer/writer.go`, not among
the sources; §4.5, §4.7, §7). After `Stopped` it is a `StateError` and leaves
the state unchanged; after `Failed` it returns the latched error. A record the
marshaller rejects is returned with its error and the writer stays as it was.
Otherwise the record's triples join the per-leaf buffers, the writer is
`Writing`, and the row group is flushed once the estimated size of the buffered
input reaches `RowGroupSize`. -/
def Write {σ : Type} (enc : Encoders) (w : ParquetWriter σ) (rec : Node) :
    ParquetWriter σ × Option Error :=
  match w.State with
  | .Stopped => (w, some errState)
  | .Failed e => (w, some e)
  | _ =>
    match w.SchemaHandler with
    | none => (w, some errState)
    | some sh =>
      match marshal sh.Leaves rec with
      | .error e => (w, some e)
      | .ok ts =>
        let w1 : ParquetWriter σ :=
          { w with
              Bufs := appendBufs w.Bufs ts
              BufRows := w.BufRows + 1
              BufSize := w.BufSize + (enc.recordSize rec : Int)
              State := .Writing }
        if w1.RowGroupSize ≤ w1.BufSize then flushRowGroup enc w1 else (w1, none)

/-- Modelled from the spec: the blocks written one after the other from the
current offset: the writer after them, the `(offset, length)` of each block
written, and the first failure. -/
def writeBlocks {σ : Type} :
    ParquetWriter σ → List (List Byte) → ParquetWriter σ × List (Int × Int) × Option Error
  | w, [] => (w, [], none)
  | w, b :: bs =>
    match emit w b with
    | (w1, some e) => (w1, [], some e)
    | (w1, none) =>
      match writeBlocks w1 bs with
      | (w2, locs, err) => (w2, (w.Offset, (b.length : Int)) :: locs, err)

/-- Modelled from the spec: the chunks of one row group with the locations of
their column-index blocks recorded, and the locations left for the next row
groups (§4.5). -/
def setColumnIndexLocs : List ColumnChunk → List (Int × Int) → List ColumnChunk × List (Int × Int)
  | [], locs => ([], locs)
  | c :: cs, [] => (c :: cs, [])
  | c :: cs, loc :: locs =>
    match setColumnIndexLocs cs locs with
    | (cs1, rest) =>
      ({ c with ColumnIndexOffset := some loc.1, ColumnIndexLength := some loc.2 } :: cs1, rest)

/-- Modelled from the spec: the chunks of one row group with the locations of
their offset-index blocks recorded, and the locations left for the next row
groups (§4.5). -/
def setOffsetIndexLocs : List ColumnChunk → List (Int × Int) → List ColumnChunk × List (Int × Int)
  | [], locs => ([], locs)
  | c :: cs, [] => (c :: cs, [])
  | c :: cs, loc :: locs =>
    match setOffsetIndexLocs cs locs with
    | (cs1, rest) =>
      ({ c with OffsetIndexOffset := some loc.1, OffsetIndexLength := some loc.2 } :: cs1, rest)

/-- Modelled from the spec: the row groups with the index locations recorded
back into every chunk, in the order the chunks were assembled (§4.5). -/
def recordIndexLocs :
    List RowGroup → List (Int × Int) → List (Int × Int) → List RowGroup
  | [], _, _ => []
  | rg :: rgs, cls, ols =>
    match setColumnIndexLocs rg.Columns cls with
    | (cs1, cls1) =>
      match setOffsetIndexLocs cs1 ols with
      | (cs2, ols1) => { rg with Columns := cs2 } :: recordIndexLocs rgs cls1 ols1

/-- Modelled from the spec: the index blocks (§4.5, §6): unless disabled, the
column indexes, then the offset indexes, are serialised after the row-group
bodies and before the footer, their offsets and lengths are recorded back into
each chunk, and the indexes are released. -/
def writeIndexes {σ : Type} (enc : Encoders) (w : ParquetWriter σ) :
    ParquetWriter σ × Option Error :=
  if w.DisableColumnIndex = true then (w, none)
  else
    match writeBlocks w (w.ColumnIndexes.map enc.columnIndexBytes) with
    | (w1, _, some e) => (w1, some e)
    | (w1, cls, none) =>
      match writeBlocks w1 (w1.OffsetIndexes.map enc.offsetIndexBytes) with
      | (w2, _, some e) => (w2, some e)
      | (w2, ols, none) =>
        ({ w2 with
            Footer := w2.Footer.map (fun f =>
              { f with RowGroups := recordIndexLocs f.RowGroups cls ols })
            ColumnIndexes := []
            OffsetIndexes := [] }, none)

/-- The little-endian unsigned 32-bit encoding of a length. -/
def le32 (n : Nat) : List Byte :=
  [n % 256, n / 256 % 256, n / 65536 % 256, n / 16777216 % 256]

/-- Modelled from the spec: the end of the file (§4.6): the serialised
footer, its length as a little-endian unsigned 32-bit integer, and the
trailing magic. -/
def writeFooter {σ : Type} (enc : Encoders) (w : ParquetWriter σ) :
    ParquetWriter σ × Option Error :=
  match w.Footer with
  | none => (w, some errState)
  | some f =>
    let footerBuf := enc.footerBytes f
    match emit w footerBuf with
    | (w1, some e) => (w1, some e)
    | (w1, none) =>
      match emit w1 (le32 footerBuf.length) with
      | (w2, some e) => (w2, some e)
      | (w2, none) => emit w2 PAR1

/-- Modelled from the spec: `WriteStop` (declared in `writer/writer.go`, not
among the sources; §4.6, §4.7). From `Stopped` it is a no-op and returns
success; from `Failed` it returns the latched error. From `Open` or `Writing`
it writes the residual row group, the index blocks and the end of the file,
and the writer is `Stopped`; the first failure on the way is returned. -/
def WriteStop {σ : Type} (enc : Encoders) (w : ParquetWriter σ) :
    ParquetWriter σ × Option Error :=
  match w.State with
  | .Stopped => (w, none)
  | .Failed e => (w, some e)
  | _ =>
    match flushRowGroup enc w with
    | (w1, some e) => (w1, some e)
    | (w1, none) =>
      match writeIndexes enc w1 with
      | (w2, some e) => (w2, some e)
      | (w2, none) =>
        match writeFooter enc w2 with
        | (w3, some e) => (w3, some e)
        | (w3, none) => ({ w3 with State := .Stopped }, none)

/-- The writer after the records `recs` have been offered to `Write` one after
the other, whatever each call returned. -/
def writeAll {σ : Type} (enc : Encoders) (w : ParquetWriter σ) (recs : List Node) :
    ParquetWriter σ :=
  recs.foldl (fun w rec => (Write enc w rec).1) w

/-! ## Concrete inputs -/

/-- The error of the failing sink of the tests. -/
def testWriteErr : Error := ⟨"test error"⟩

/-- The sink `invalidFile` of the tests: `Write` returns `(0, testWriteErr)`. -/
def invalidFile : ParquetFile Unit :=
  { state := (), write := fun _ _ => ((), 0, some testWriteErr), calls := [] }

/-- A buffer sink: it appends what it is given and accepts it in full. -/
def bufferFile : ParquetFile (List Byte) :=
  { state := [], write := fun s p => (s ++ p, (p.length : Int), none), calls := [] }

/-- The error of a sink that has run out of room. -/
def errNoSpace : Error := ⟨"no space left on device"⟩

/-- A sink with room for `room` more writes: it counts down, accepts in full
while there is room, and fails with `errNoSpace` afterwards. -/
def boundedFile (room : Nat) : ParquetFile Nat :=
  { state := room
    write := fun s p => if s = 0 then (0, 0, some errNoSpace) else (s - 1, (p.length : Int), none)
    calls := [] }

/-- The error of a schema text that does not parse. -/
def errBadSchema : Error := ⟨"error in unmarshalling json schema string"⟩

/-- A schema with one optional INT64 column `x`. -/
def demoHandler : SchemaHandler :=
  { SchemaElements :=
      [ { Name := "parquet_go_root", RepetitionType := some .REQUIRED, NumChildren := some 1,
          PhysType := none, TypeLength := none, Precision := none, Scale := none },
        { Name := "x", RepetitionType := some .OPTIONAL, NumChildren := none,
          PhysType := some .INT64, TypeLength := none, Precision := none, Scale := none } ]
    Leaves :=
      [ { path := [("x", .OPTIONAL)], physType := .INT64, omitstats := false,
          omitMinMax := false, dictionaryEligible := false } ] }

/-- A schema parser for the examples: the empty text does not parse, any other
text gives `demoHandler`. -/
def demoParse (jsonSchema : String) : Option SchemaHandler × Option Error :=
  if jsonSchema.length = 0 then (none, some errBadSchema) else (some demoHandler, none)

/-- The encoders of the examples: every value is estimated at 8 bytes, no
dictionary falls back, `min` and `max` are one byte each, a page is encoded as
one byte per triple, an index block as one byte, the footer as one byte per row
group and two more. -/
def demoEnc : Encoders :=
  { estSize := fun _ => 8
    dictFallsBack := fun _ => false
    minMaxBytes := fun _ vs => ([vs.length % 256], [vs.length % 256])
    dictPageBytes := fun _ _ => []
    dataPageBytes := fun _ _ ts => ts.map (fun t => t.D)
    columnIndexBytes := fun _ => [1]
    offsetIndexBytes := fun _ => [2]
    footerBytes := fun f => 7 :: 7 :: f.RowGroups.map (fun rg => rg.Columns.length)
    recordSize := fun _ => 16 }

/-- The writer the constructor returns, or the zero writer if it panics. -/
def openedWriter {σ : Type} (r : Option (NewJSONWriterResult σ)) : ParquetWriter σ :=
  match r with
  | some { res := some jw, .. } => jw.ParquetWriter
  | _ => ParquetWriter.zero

/-- A record of `demoHandler` with `x = 5`. -/
def recX5 : Node := .group [("x", .prim (.I64 5))]

/-- A record of `demoHandler` with `x` null. -/
def recXnull : Node := .group [("x", .null)]

/-- An optional INT64 leaf `v` inside a repeated group `xs`. -/
def leafRepeated : LeafInfo :=
  { path := [("xs", .REPEATED), ("v", .OPTIONAL)], physType := .INT64, omitstats := false,
    omitMinMax := false, dictionaryEligible := false }

/-- A record whose list `xs` has two items, both without `v`. -/
def recTwoNulls : Node := .group [("xs", .list [.group [], .group []])]

/-- An optional INT64 leaf `x`, with statistics. -/
def leafX : LeafInfo :=
  { path := [("x", .OPTIONAL)], physType := .INT64, omitstats := false,
    omitMinMax := false, dictionaryEligible := false }

/-- The writer `NewJSONWriter` returns for a schema that parses, with no
option and `np = 1`, on the sink `pf`. -/
def writerOn {σ : Type} (pf : ParquetFile σ) : ParquetWriter σ :=
  openedWriter (NewJSONWriter demoParse "s" pf 1 [])

/-- Three records of `demoHandler`: `x = 5`, then `x` null twice. -/
def recsX : List Node := [recX5, recXnull, recXnull]

/-- A leaf of a flat schema of INT64 columns. -/
def int64Leaf (name : String) (rep : FieldRepetitionType) (omitstats : Bool) : LeafInfo :=
  { path := [(name, rep)], physType := .INT64, omitstats := omitstats, omitMinMax := false,
    dictionaryEligible := false }

/-- A column of a flat schema of INT64 columns. -/
def int64Element (name : String) (rep : FieldRepetitionType) : SchemaElement :=
  { Name := name, RepetitionType := some rep, NumChildren := none, PhysType := some .INT64,
    TypeLength := none, Precision := none, Scale := none }

/-- The schema of `TestNullCountsFromColumnIndex`: optional `x`, `y` and `z`,
required `u` and `v`; `z` and `v` are marked `omitstats`. -/
def entryHandler : SchemaHandler :=
  { SchemaElements :=
      [ { Name := "parquet_go_root", RepetitionType := some .REQUIRED, NumChildren := some 5,
          PhysType := none, TypeLength := none, Precision := none, Scale := none },
        int64Element "x" .OPTIONAL, int64Element "y" .OPTIONAL, int64Element "z" .OPTIONAL,
        int64Element "u" .REQUIRED, int64Element "v" .REQUIRED ]
    Leaves :=
      [ int64Leaf "x" .OPTIONAL false, int64Leaf "y" .OPTIONAL false,
        int64Leaf "z" .OPTIONAL true, int64Leaf "u" .REQUIRED false,
        int64Leaf "v" .REQUIRED true ] }

/-- One entry of `TestNullCountsFromColumnIndex`. -/
def entry (x y z : Option Int) (u v : Int) : Node :=
  let opt : Option Int → Node := fun o =>
    match o with
    | some n => .prim (.I64 n)
    | none => .null
  .group [("x", opt x), ("y", opt y), ("z", opt z), ("u", .prim (.I64 u)), ("v", .prim (.I64 v))]

/-- The three entries of `TestNullCountsFromColumnIndex`. -/
def entries : List Node :=
  [entry (some 0) (some 0) (some 0) 1 1, entry none (some 1) (some 1) 2 2, entry none none none 3 3]

/-- The writer of `TestNullCountsFromColumnIndex` on the buffer sink. -/
def entryWriter : ParquetWriter (List Byte) :=
  openedWriter (NewJSONWriter (fun _ => (some entryHandler, none)) "s" bufferFile 1 [])

/-- An option that writes to fields the constructor assigns afterwards (the
page and row-group sizes, the codec, `NP`, the offset, the sink, the footer)
and to one it does not assign, the index flag. -/
def overwriteOption {σ : Type} : ParquetWriterOption σ :=
  fun pw =>
    { pw with
        PageSize := 1
        RowGroupSize := 2
        CompressionType := .GZIP
        NP := 3
        Offset := 99
        PFile := none
        Footer := some { Version := 7, Schema := [int64Element "ghost" .REQUIRED], NumRows := 5,
                         RowGroups := [] }
        DisableColumnIndex := true }

/-- The little-endian two's-complement bytes of an integer, `width` of
them. -/
def leBytes (width : Nat) (n : Int) : List Byte :=
  (List.range width).map (fun i => ((n % (256 : Int) ^ width).toNat / 256 ^ i) % 256)

/-- The lexicographic order of byte strings. -/
def lexLe : List Byte → List Byte → Bool
  | [], _ => true
  | _ :: _, [] => false
  | a :: as, b :: bs => decide (a < b) || (decide (a = b) && lexLe as bs)

/-- The integer an integer value carries. -/
def intOf : Value → Option Int
  | .I32 n => some n
  | .I64 n => some n
  | .I96 n => some n
  | _ => none

/-- The bytes a byte-array value carries. -/
def bytesOf : Value → Option (List Byte)
  | .Bytes b => some b
  | .FixedBytes b => some b
  | _ => none

/-- The smallest and the largest of the integers among `vs`, in `width` bytes
each; no bytes when there is none. -/
def intMinMax (width : Nat) (vs : List Value) : List Byte × List Byte :=
  match vs.filterMap intOf with
  | [] => ([], [])
  | n :: ns => (leBytes width (ns.foldl min n), leBytes width (ns.foldl max n))

/-- The first and the last, in lexicographic order, of the byte arrays among
`vs`, as they are; no bytes when there is none. -/
def bytesMinMax (vs : List Value) : List Byte × List Byte :=
  match vs.filterMap bytesOf with
  | [] => ([], [])
  | b :: bs =>
    (bs.foldl (fun m x => if lexLe x m then x else m) b,
     bs.foldl (fun m x => if lexLe m x then x else m) b)

/-- A statistics encoder that writes the values as they are: integers in
signed order as little-endian bytes of the width of the type, byte arrays in
lexicographic order as their raw bytes. It has no statistics for the other
types. -/
def rawMinMax (ty : PhysicalType) (vs : List Value) : List Byte × List Byte :=
  match ty with
  | .INT32 => intMinMax 4 vs
  | .INT64 => intMinMax 8 vs
  | .INT96 => intMinMax 12 vs
  | .BYTE_ARRAY => bytesMinMax vs
  | .FIXED_LEN_BYTE_ARRAY => bytesMinMax vs
  | _ => ([], [])

/-- The encoders of the examples with the statistics encoder `rawMinMax`. -/
def rawEnc : Encoders := { demoEnc with minMaxBytes := rawMinMax }

/-- A required INT64 leaf `u` inside an optional group `g`. -/
def leafRequiredInOptional : LeafInfo :=
  { path := [("g", .OPTIONAL), ("u", .REQUIRED)], physType := .INT64, omitstats := false,
    omitMinMax := false, dictionaryEligible := false }

/-- A schema with the leaf `xs.v` under a repeated group and the required
leaf `g.u` under an optional group. -/
def nestedHandler : SchemaHandler :=
  { SchemaElements :=
      [ { Name := "parquet_go_root", RepetitionType := some .REQUIRED, NumChildren := some 2,
          PhysType := none, TypeLength := none, Precision := none, Scale := none },
        { Name := "xs", RepetitionType := some .REPEATED, NumChildren := some 1,
          PhysType := none, TypeLength := none, Precision := none, Scale := none },
        int64Element "v" .OPTIONAL,
        { Name := "g", RepetitionType := some .OPTIONAL, NumChildren := some 1,
          PhysType := none, TypeLength := none, Precision := none, Scale := none },
        int64Element "u" .REQUIRED ]
    Leaves := [leafRepeated, leafRequiredInOptional] }

/-- The writer for `nestedHandler` on the buffer sink. -/
def nestedWriter : ParquetWriter (List Byte) :=
  openedWriter (NewJSONWriter (fun _ => (some nestedHandler, none)) "s" bufferFile 1 [])

/-- An optional BYTE_ARRAY leaf. -/
def bytesLeaf (name : String) (omitstats omitMinMax : Bool) : LeafInfo :=
  { path := [(name, .OPTIONAL)], physType := .BYTE_ARRAY, omitstats := omitstats,
    omitMinMax := omitMinMax, dictionaryEligible := false }

/-- A schema of three optional BYTE_ARRAY columns: `z` marked `omitstats`,
`s` marked `omit_min_max`, and `b` with neither flag. -/
def flagsHandler : SchemaHandler :=
  { SchemaElements :=
      [ { Name := "parquet_go_root", RepetitionType := some .REQUIRED, NumChildren := some 3,
          PhysType := none, TypeLength := none, Precision := none, Scale := none },
        { Name := "z", RepetitionType := some .OPTIONAL, NumChildren := none,
          PhysType := some .BYTE_ARRAY, TypeLength := none, Precision := none, Scale := none },
        { Name := "s", RepetitionType := some .OPTIONAL, NumChildren := none,
          PhysType := some .BYTE_ARRAY, TypeLength := none, Precision := none, Scale := none },
        { Name := "b", RepetitionType := some .OPTIONAL, NumChildren := none,
          PhysType := some .BYTE_ARRAY, TypeLength := none, Precision := none, Scale := none } ]
    Leaves := [bytesLeaf "z" true false, bytesLeaf "s" false true, bytesLeaf "b" false false] }

/-- The writer for `flagsHandler` on the buffer sink. -/
def flagsWriter : ParquetWriter (List Byte) :=
  openedWriter (NewJSONWriter (fun _ => (some flagsHandler, none)) "s" bufferFile 1 [])

/-- A record of `flagsHandler`: `z` and `s` hold the bytes of "ab", `b` holds
the empty string. -/
def recFlags : Node :=
  .group [("z", .prim (.Bytes [97, 98])), ("s", .prim (.Bytes [97, 98])), ("b", .prim (.Bytes []))]

/-- The writer of `demoHandler` on the buffer sink with its page size set to
15 after the construction, as `TestColumnIndexMinMaxAndNullPages` sets it to
64: a page is cut at the second value. -/
def smallPageWriter : ParquetWriter (List Byte) :=
  { writerOn bufferFile with PageSize := 15 }

/-- A record of `demoHandler` with `x = -3`. -/
def recXminus3 : Node := .group [("x", .prim (.I64 (-3)))]

/-- Four records of `demoHandler`: `x = 5`, `x = -3`, then `x` null twice. -/
def recsMinMax : List Node := [recX5, recXminus3, recXnull, recXnull]

/-! ## Predicates of the statements -/

/-- Whether the leaf with path `path` is null in the record `node`: a node on
the way is absent or null, or a list on the way is empty or has an item in
which the leaf is null. -/
def resolvesNull : List (String × FieldRepetitionType) → Node → Bool
  | [], .prim _ => false
  | [], _ => true
  | (name, rep) :: rest, .group fields =>
    match lookupField name fields with
    | none => true
    | some .null => true
    | some v =>
      match rep with
      | .REPEATED =>
        match v with
        | .list items => items.isEmpty || items.any (resolvesNull rest)
        | _ => true
      | _ => resolvesNull rest v
  | _ :: _, _ => true

/-- The writer is open on a sink that accepts writes in full: it has its
schema handler, its footer and such a sink. -/
def ParquetWriter.Ready {σ : Type} (w : ParquetWriter σ) : Prop :=
  (∃ pf, w.PFile = some pf ∧ pf.AcceptsInFull) ∧ (∃ sh, w.SchemaHandler = some sh) ∧
    (∃ f, w.Footer = some f)

/-- The writer states reached by a successful construction followed by
successful `Write` calls. -/
inductive Reached {σ : Type} (enc : Encoders)
    (parse : String → Option SchemaHandler × Option Error) : ParquetWriter σ → Prop where
  | construct (js : String) (pfile : ParquetFile σ) (np : Int)
      (opts : List (ParquetWriterOption σ)) (r : NewJSONWriterResult σ) (jw : JSONWriter σ) :
      NewJSONWriter parse js pfile np opts = some r → r.err = none → r.res = some jw →
      Reached enc parse jw.ParquetWriter
  | write (w : ParquetWriter σ) (rec : Node) :
      Reached enc parse w → (Write enc w rec).2 = none → Reached enc parse (Write enc w rec).1

/-- No index is recorded: the writer's index lists are empty and no chunk of
the footer has an index location. -/
def ParquetWriter.NoIndex {σ : Type} (w : ParquetWriter σ) : Prop :=
  w.ColumnIndexes = [] ∧ w.OffsetIndexes = [] ∧
    ∀ f, w.Footer = some f → ∀ rg ∈ f.RowGroups, ∀ c ∈ rg.Columns,
      c.ColumnIndexOffset = none ∧ c.ColumnIndexLength = none ∧
      c.OffsetIndexOffset = none ∧ c.OffsetIndexLength = none

/-- An option list that only configures: applied to a new writer it leaves
the state, the row buffer and the index lists as they are. -/
def ConfigOnly {σ : Type} (opts : List (ParquetWriterOption σ)) : Prop :=
  (applyOpts opts (ParquetWriter.zero : ParquetWriter σ)).State = .Open ∧
  (applyOpts opts (ParquetWriter.zero : ParquetWriter σ)).BufRows = 0 ∧
  (applyOpts opts (ParquetWriter.zero : ParquetWriter σ)).ColumnIndexes = [] ∧
  (applyOpts opts (ParquetWriter.zero : ParquetWriter σ)).OffsetIndexes = []

/-- The writer has been opened: it has a sink, a schema handler and a
footer. -/
def ParquetWriter.Opened {σ : Type} (w : ParquetWriter σ) : Prop :=
  (∃ pf, w.PFile = some pf) ∧ (∃ sh, w.SchemaHandler = some sh) ∧ (∃ f, w.Footer = some f)

/-- What the write path never changes between a writer `w` and a later
writer `w1`: the schema handler, the index flag, the presence of the footer,
and the sink's presence and behaviour. -/
def Frame {σ : Type} (w w1 : ParquetWriter σ) : Prop :=
  w1.SchemaHandler = w.SchemaHandler ∧ w1.DisableColumnIndex = w.DisableColumnIndex ∧
    ((∃ f, w.Footer = some f) → ∃ f1, w1.Footer = some f1) ∧
    (∀ pf, w.PFile = some pf → ∃ pf1, w1.PFile = some pf1 ∧ pf1.write = pf.write)

/-- The triples a record gives a leaf; none when the marshaller rejects the
record for the leaf. -/
def triplesOf (l : LeafInfo) (rec : Node) : List Triple :=
  match shredLeaf l rec with
  | .ok ts => ts
  | .error _ => []

/-- The triples a list of records gives a leaf, in the order of the
records. -/
def leafStream (l : LeafInfo) (recs : List Node) : List Triple :=
  (recs.map (triplesOf l)).flatten

/-- The estimated size of a list of records. -/
def totalSize (enc : Encoders) (recs : List Node) : Int :=
  (recs.map (fun rec => (enc.recordSize rec : Int))).sum

/-- The writer `w` with the records `recs` buffered: every leaf's buffer holds
the triples the records give the leaf. -/
def buffered {σ : Type} (enc : Encoders) (w : ParquetWriter σ) (sh : SchemaHandler)
    (recs : List Node) : ParquetWriter σ :=
  { w with
      Bufs := sh.Leaves.map (fun l => leafStream l recs)
      BufRows := (recs.length : Int)
      BufSize := totalSize enc recs
      State := .Writing }

/-- The writer is at the start of a row group with the column index enabled:
it is open, with the schema handler `sh`, on a sink that accepts writes in
full, has not been stopped and has not failed, and nothing is buffered. -/
def ParquetWriter.AtRowGroupStart {σ : Type} (w : ParquetWriter σ)
    (sh : ParquetGo.SchemaHandler) :
    Prop :=
  w.Ready ∧ w.SchemaHandler = some sh ∧ (w.State = .Open ∨ w.State = .Writing) ∧
    w.DisableColumnIndex = false ∧
    (w.Bufs = [] ∨ w.Bufs = sh.Leaves.map (fun _ => [])) ∧ w.BufRows = 0 ∧ w.BufSize = 0

/-! ## The constructor -/

/-- On a schema that parses, the constructor returns, with the error of its
one `Write` call. -/
theorem NewJSONWriter_parsed {σ : Type}
    (parse : String → Option SchemaHandler × Option Error) (js : String) (sh : SchemaHandler)
    (pfile : ParquetFile σ) (np : Int) (opts : List (ParquetWriterOption σ))
    (hparse : parse js = (some sh, none)) :
    NewJSONWriter parse js pfile np opts =
      some
        { res := some
            ⟨{ applyOpts opts ParquetWriter.zero with
                SchemaHandler := some sh
                PFile := some (pfile.Write PAR1).1
                PageSize := 8192
                RowGroupSize := 134217728
                CompressionType := .SNAPPY
                PagesMapBuf := some []
                DictRecs := some []
                NP := np
                Footer := some { Version := 1, Schema := sh.SchemaElements, NumRows := 0,
                                 RowGroups := [] }
                Offset := 4
                MarshalFunc := some .MarshalJSON }⟩
          err := (pfile.Write PAR1).2.2
          pfile := (pfile.Write PAR1).1 } := by
  simp [NewJSONWriter, hparse, NewFileMetaData]

/-- C1. When the schema parses and the sink's `Write` fails with `E` on the
call the constructor makes, the first one, the constructor returns `E` itself
as its error. -/
theorem NewJSONWriter_returns_sink_error {σ : Type}
    (parse : String → Option SchemaHandler × Option Error) (js : String) (sh : SchemaHandler)
    (pfile : ParquetFile σ) (np : Int) (opts : List (ParquetWriterOption σ))
    (n : Int) (E : Error)
    (hparse : parse js = (some sh, none))
    (hwrite : (pfile.Write PAR1).2 = (n, some E)) :
    ∃ r, NewJSONWriter parse js pfile np opts = some r ∧ r.err = some E := by
  refine ⟨_, NewJSONWriter_parsed parse js sh pfile np opts hparse, ?_⟩
  simp [hwrite]

/-- Witness of C1: the failing sink of the tests. -/
theorem NewJSONWriter_returns_sink_error_witness :
    ∃ r, NewJSONWriter demoParse "s" invalidFile 1 [] = some r ∧ r.err = some testWriteErr :=
  NewJSONWriter_returns_sink_error demoParse "s" demoHandler invalidFile 1 [] 0 testWriteErr
    (by decide) (by rfl)

/-- C2. When the schema parser returns an error `e`, the constructor returns
exactly `e` and leaves the sink as it was: no `Write` call is made, so no byte
reaches the sink, whatever the sink, `np` and the options are. -/
theorem NewJSONWriter_schema_error_no_write {σ : Type}
    (parse : String → Option SchemaHandler × Option Error) (js : String)
    (pfile : ParquetFile σ) (np : Int) (opts : List (ParquetWriterOption σ)) (e : Error)
    (hparse : (parse js).2 = some e) :
    ∃ r, NewJSONWriter parse js pfile np opts = some r ∧ r.err = some e ∧
      r.pfile = pfile ∧ r.pfile.calls = pfile.calls ∧ r.pfile.state = pfile.state := by
  simp [NewJSONWriter, hparse]

/-- Witness of C2: the empty schema text on the buffer sink. -/
theorem NewJSONWriter_schema_error_no_write_witness :
    ∃ r, NewJSONWriter demoParse "" bufferFile 1 [] = some r ∧ r.err = some errBadSchema ∧
      r.pfile = bufferFile ∧ r.pfile.calls = bufferFile.calls ∧
      r.pfile.state = bufferFile.state :=
  NewJSONWriter_schema_error_no_write demoParse "" bufferFile 1 [] errBadSchema (by decide)

/-- C3. On a schema that parses and a sink that accepts writes in full, the
constructor succeeds having made exactly one `Write` call, with the four bytes
`'P','A','R','1'`: the sink's call record grows by that one call (so a sink
not written before holds `PAR1` from offset 0), the sink the writer holds is
the sink after that call, and the writer's `Offset` is 4, the count the call
returned. -/
theorem NewJSONWriter_writes_magic {σ : Type}
    (parse : String → Option SchemaHandler × Option Error) (js : String) (sh : SchemaHandler)
    (pfile : ParquetFile σ) (np : Int) (opts : List (ParquetWriterOption σ))
    (hparse : parse js = (some sh, none))
    (hsink : pfile.AcceptsInFull) :
    ∃ r w, NewJSONWriter parse js pfile np opts = some r ∧ r.err = none ∧ r.res = some w ∧
      r.pfile.calls = pfile.calls ++ [[80, 65, 82, 49]] ∧
      r.pfile.state = (pfile.write pfile.state [80, 65, 82, 49]).1 ∧
      (pfile.calls = [] → r.pfile.calls.flatten = [80, 65, 82, 49]) ∧
      w.ParquetWriter.PFile = some r.pfile ∧
      w.ParquetWriter.Offset = 4 ∧
      w.ParquetWriter.Offset = (pfile.Write PAR1).2.1 := by
  have h := hsink pfile.state PAR1
  refine ⟨_, _, NewJSONWriter_parsed parse js sh pfile np opts hparse, ?_, rfl, ?_, ?_, ?_, rfl,
    rfl, ?_⟩
  · simp [ParquetFile.Write, h]
  · simp [ParquetFile.Write, PAR1]
  · simp [ParquetFile.Write, PAR1]
  · intro hc
    simp [ParquetFile.Write, PAR1, hc]
  · show (4 : Int) = (pfile.write pfile.state PAR1).2.1
    rw [h]
    rfl

/-- Witness of C3: the buffer sink. -/
theorem NewJSONWriter_writes_magic_witness :
    ∃ r w, NewJSONWriter demoParse "s" bufferFile 1 [] = some r ∧ r.err = none ∧
      r.res = some w ∧
      r.pfile.calls = bufferFile.calls ++ [[80, 65, 82, 49]] ∧
      r.pfile.state = (bufferFile.write bufferFile.state [80, 65, 82, 49]).1 ∧
      (bufferFile.calls = [] → r.pfile.calls.flatten = [80, 65, 82, 49]) ∧
      w.ParquetWriter.PFile = some r.pfile ∧
      w.ParquetWriter.Offset = 4 ∧
      w.ParquetWriter.Offset = (bufferFile.Write PAR1).2.1 :=
  NewJSONWriter_writes_magic demoParse "s" demoHandler bufferFile 1 [] (by decide)
    (by intro s p; rfl)

/-- C4. On a schema that parses, whatever the sink and `np`, the writer the
constructor returns when called with no options has `PageSize = 8192`,
`RowGroupSize = 134217728`, `CompressionType = SNAPPY` and `NP = np`. -/
theorem NewJSONWriter_defaults {σ : Type}
    (parse : String → Option SchemaHandler × Option Error) (js : String) (sh : SchemaHandler)
    (pfile : ParquetFile σ) (np : Int)
    (hparse : parse js = (some sh, none)) :
    ∃ r w, NewJSONWriter parse js pfile np [] = some r ∧ r.res = some w ∧
      w.ParquetWriter.PageSize = 8192 ∧ w.ParquetWriter.PageSize = 8 * 1024 ∧
      w.ParquetWriter.RowGroupSize = 134217728 ∧
      w.ParquetWriter.RowGroupSize = 128 * 1024 * 1024 ∧
      w.ParquetWriter.CompressionType = .SNAPPY ∧
      w.ParquetWriter.NP = np :=
  ⟨_, _, NewJSONWriter_parsed parse js sh pfile np [] hparse, rfl, rfl, by norm_num, rfl,
    by norm_num, rfl, rfl⟩

/-- Witness of C4: the failing sink of the tests, `np = 7`. -/
theorem NewJSONWriter_defaults_witness :
    ∃ r w, NewJSONWriter demoParse "s" invalidFile 7 [] = some r ∧ r.res = some w ∧
      w.ParquetWriter.PageSize = 8192 ∧ w.ParquetWriter.PageSize = 8 * 1024 ∧
      w.ParquetWriter.RowGroupSize = 134217728 ∧
      w.ParquetWriter.RowGroupSize = 128 * 1024 * 1024 ∧
      w.ParquetWriter.CompressionType = .SNAPPY ∧
      w.ParquetWriter.NP = 7 :=
  NewJSONWriter_defaults demoParse "s" demoHandler invalidFile 7 (by decide)

/-- C10. At the failing inputs the constructor returns a writer that is not
nil together with the error: on the failing sink of the tests with a schema
that parses, and on a schema that does not parse. -/
theorem NewJSONWriter_returns_writer_with_error :
    (NewJSONWriter demoParse "s" invalidFile 1 []).map
        (fun r => (r.res.isSome, r.err)) = some (true, some testWriteErr) ∧
    (NewJSONWriter demoParse "" invalidFile 1 []).map
        (fun r => (r.res.isSome, r.err)) = some (true, some errBadSchema) := by
  constructor <;> rfl

/-! ## Frame lemmas of the write path -/

theorem Frame.refl {σ : Type} (w : ParquetWriter σ) : Frame w w :=
  ⟨rfl, rfl, fun h => h, fun pf h => ⟨pf, h, rfl⟩⟩

theorem Frame.trans {σ : Type} {a b c : ParquetWriter σ} (h1 : Frame a b) (h2 : Frame b c) :
    Frame a c := by
  obtain ⟨s1, d1, f1, p1⟩ := h1
  obtain ⟨s2, d2, f2, p2⟩ := h2
  refine ⟨s2.trans s1, d2.trans d1, fun h => f2 (f1 h), fun pf h => ?_⟩
  obtain ⟨pf1, hp1, hw1⟩ := p1 pf h
  obtain ⟨pf2, hp2, hw2⟩ := p2 pf1 hp1
  exact ⟨pf2, hp2, hw2.trans hw1⟩

theorem Frame.keeps_opened {σ : Type} {a b : ParquetWriter σ} (h : Frame a b) (ha : a.Opened) :
    b.Opened := by
  obtain ⟨s1, _, f1, p1⟩ := h
  obtain ⟨⟨pf, hpf⟩, ⟨sh, hsh⟩, hf⟩ := ha
  obtain ⟨pf1, hp1, _⟩ := p1 pf hpf
  exact ⟨⟨pf1, hp1⟩, ⟨sh, s1.trans hsh⟩, f1 hf⟩

theorem Frame.keeps_ready {σ : Type} {a b : ParquetWriter σ} (h : Frame a b) (ha : a.Ready) :
    b.Ready := by
  obtain ⟨s1, _, f1, p1⟩ := h
  obtain ⟨⟨pf, hpf, hacc⟩, ⟨sh, hsh⟩, hf⟩ := ha
  obtain ⟨pf1, hp1, hw1⟩ := p1 pf hpf
  refine ⟨⟨pf1, hp1, ?_⟩, ⟨sh, s1.trans hsh⟩, f1 hf⟩
  intro s p
  rw [hw1]
  exact hacc s p

theorem emit_none {σ : Type} (w : ParquetWriter σ) (data : List Byte) (h : w.PFile = none) :
    emit w data = (w, some errState) := by
  simp [emit, h]

theorem emit_fail {σ : Type} (w : ParquetWriter σ) (data : List Byte) (pf : ParquetFile σ)
    (e : Error) (h : w.PFile = some pf) (he : (pf.Write data).2.2 = some e) :
    emit w data = ({ w with PFile := some (pf.Write data).1, State := .Failed e }, some e) := by
  simp [emit, h, he]

theorem emit_ok {σ : Type} (w : ParquetWriter σ) (data : List Byte) (pf : ParquetFile σ)
    (h : w.PFile = some pf) (he : (pf.Write data).2.2 = none) :
    emit w data =
      ({ w with PFile := some (pf.Write data).1, Offset := w.Offset + (data.length : Int) },
        none) := by
  simp [emit, h, he]

/-- The three ways `emit` can go. -/
theorem emit_cases {σ : Type} (w : ParquetWriter σ) (data : List Byte) :
    emit w data = (w, some errState) ∨
    (∃ pf e, w.PFile = some pf ∧
      emit w data = ({ w with PFile := some (pf.Write data).1, State := .Failed e }, some e)) ∨
    (∃ pf, w.PFile = some pf ∧
      emit w data =
        ({ w with PFile := some (pf.Write data).1, Offset := w.Offset + (data.length : Int) },
          none)) := by
  cases h : w.PFile with
  | none => exact Or.inl (emit_none w data h)
  | some pf =>
    cases he : (pf.Write data).2.2 with
    | none => exact Or.inr (Or.inr ⟨pf, rfl, emit_ok w data pf h he⟩)
    | some e => exact Or.inr (Or.inl ⟨pf, e, rfl, emit_fail w data pf e h he⟩)

/-- What `emit` leaves alone: every field but the sink, the state and the
offset. -/
theorem emit_fields {σ : Type} (w : ParquetWriter σ) (data : List Byte) :
    (emit w data).1 =
      { w with PFile := (emit w data).1.PFile, State := (emit w data).1.State,
               Offset := (emit w data).1.Offset } := by
  rcases emit_cases w data with h | ⟨pf, e, _, h⟩ | ⟨pf, _, h⟩ <;> rw [h]

theorem emit_frame {σ : Type} (w : ParquetWriter σ) (data : List Byte) :
    Frame w (emit w data).1 := by
  rcases emit_cases w data with h | ⟨pf, e, hpf, h⟩ | ⟨pf, hpf, h⟩ <;> rw [h]
  · exact Frame.refl w
  · exact ⟨rfl, rfl, fun h => h, fun pf1 h1 => ⟨_, rfl, by
      rw [hpf] at h1; cases h1; rfl⟩⟩
  · exact ⟨rfl, rfl, fun h => h, fun pf1 h1 => ⟨_, rfl, by
      rw [hpf] at h1; cases h1; rfl⟩⟩

/-- On a sink that accepts writes in full, `emit` succeeds, the offset
advances by the length written and the state is kept. -/
theorem emit_ready {σ : Type} (w : ParquetWriter σ) (data : List Byte) (h : w.Ready) :
    (emit w data).2 = none ∧ (emit w data).1.State = w.State ∧
      (emit w data).1.Offset = w.Offset + (data.length : Int) := by
  obtain ⟨⟨pf, hpf, hacc⟩, _, _⟩ := h
  have h2 : (pf.Write data).2.2 = none := by
    have := hacc pf.state data
    simp only [ParquetFile.Write]
    rw [this]
  rw [emit_ok w data pf hpf h2]
  exact ⟨rfl, rfl, rfl⟩

/-- The fields `emit` keeps. -/
theorem emit_keeps {σ : Type} (w : ParquetWriter σ) (data : List Byte) :
    (emit w data).1.Footer = w.Footer ∧
    (emit w data).1.ColumnIndexes = w.ColumnIndexes ∧
    (emit w data).1.OffsetIndexes = w.OffsetIndexes ∧
    (emit w data).1.DisableColumnIndex = w.DisableColumnIndex ∧
    (emit w data).1.SchemaHandler = w.SchemaHandler ∧
    (emit w data).1.BufRows = w.BufRows ∧
    (emit w data).1.Bufs = w.Bufs := by
  rcases emit_cases w data with h | ⟨pf, e, _, h⟩ | ⟨pf, _, h⟩ <;> rw [h] <;> simp

/-- What the assembly of a chunk does to the writer. -/
theorem flushChunk_spec {σ : Type} (enc : Encoders) (w : ParquetWriter σ) (l : LeafInfo)
    (ts : List Triple) :
    Frame w (flushChunk enc w l ts).1 ∧
    (flushChunk enc w l ts).1.Footer = w.Footer ∧
    (flushChunk enc w l ts).1.BufRows = w.BufRows ∧
    (w.DisableColumnIndex = true →
      (flushChunk enc w l ts).1.ColumnIndexes = w.ColumnIndexes ∧
      (flushChunk enc w l ts).1.OffsetIndexes = w.OffsetIndexes) ∧
    (∀ c, (flushChunk enc w l ts).2.1 = some c →
      c.ColumnIndexOffset = none ∧ c.ColumnIndexLength = none ∧
      c.OffsetIndexOffset = none ∧ c.OffsetIndexLength = none) ∧
    (w.Ready → ∃ c, (flushChunk enc w l ts).2 = (some c, none)) := by
  have hfr := emit_frame w (enc.dictPageBytes l ts ++
    (List.map (enc.dataPageBytes l w.CompressionType) (chunkPages enc l w.PageSize ts)).flatten)
  have hrd := emit_ready w (enc.dictPageBytes l ts ++
    (List.map (enc.dataPageBytes l w.CompressionType) (chunkPages enc l w.PageSize ts)).flatten)
  have hk := emit_keeps w (enc.dictPageBytes l ts ++
    (List.map (enc.dataPageBytes l w.CompressionType) (chunkPages enc l w.PageSize ts)).flatten)
  unfold flushChunk
  simp only
  generalize emit w (enc.dictPageBytes l ts ++
    (List.map (enc.dataPageBytes l w.CompressionType) (chunkPages enc l w.PageSize ts)).flatten) = r
    at hfr hrd hk
  obtain ⟨w1, err⟩ := r
  obtain ⟨kF, kC, kO, kD, kS, kR, kB⟩ := hk
  simp only at hfr hrd kF kC kO kD kS kR kB
  cases err with
  | some e =>
    refine ⟨hfr, kF, kR, fun _ => ⟨kC, kO⟩, ?_, ?_⟩
    · intro c hc
      simp at hc
    · intro hr
      have := (hrd hr).1
      simp at this
  | none =>
    by_cases hd : w1.DisableColumnIndex = true
    · dsimp only
      rw [if_pos hd]
      refine ⟨hfr, kF, kR, fun _ => ⟨kC, kO⟩, ?_, fun _ => ⟨_, rfl⟩⟩
      intro c hc
      simp only [Option.some.injEq] at hc
      subst hc
      exact ⟨rfl, rfl, rfl, rfl⟩
    · dsimp only
      rw [if_neg hd]
      refine ⟨⟨hfr.1, hfr.2.1, hfr.2.2.1, hfr.2.2.2⟩, kF, kR, ?_, ?_, fun _ => ⟨_, rfl⟩⟩
      · intro hw
        exact absurd (kD.trans hw) hd
      · intro c hc
        simp only [Option.some.injEq] at hc
        subst hc
        exact ⟨rfl, rfl, rfl, rfl⟩

/-- The four index locations of a chunk are absent. -/
theorem flushChunks_spec {σ : Type} (enc : Encoders) (xs : List (LeafInfo × List Triple)) :
    ∀ w : ParquetWriter σ,
    Frame w (flushChunks enc w xs).1 ∧
    (flushChunks enc w xs).1.Footer = w.Footer ∧
    (w.DisableColumnIndex = true →
      (flushChunks enc w xs).1.ColumnIndexes = w.ColumnIndexes ∧
      (flushChunks enc w xs).1.OffsetIndexes = w.OffsetIndexes) ∧
    (∀ c ∈ (flushChunks enc w xs).2.1,
      c.ColumnIndexOffset = none ∧ c.ColumnIndexLength = none ∧
      c.OffsetIndexOffset = none ∧ c.OffsetIndexLength = none) ∧
    (w.Ready → (flushChunks enc w xs).2.2 = none) := by
  induction xs with
  | nil =>
    intro w
    exact ⟨Frame.refl w, rfl, fun _ => ⟨rfl, rfl⟩, fun c hc => by simp [flushChunks] at hc,
      fun _ => rfl⟩
  | cons x rest ih =>
    intro w
    obtain ⟨l, ts⟩ := x
    obtain ⟨hfr, hF, _, hI, hc, hrd⟩ := flushChunk_spec enc w l ts
    unfold flushChunks
    generalize flushChunk enc w l ts = r at hfr hF hI hc hrd
    obtain ⟨w1, oc, err⟩ := r
    simp only at hfr hF hI hc hrd
    cases oc with
    | none =>
      dsimp only
      refine ⟨hfr, hF, hI, fun c hc => by simp at hc, ?_⟩
      intro hr
      obtain ⟨c, hc⟩ := hrd hr
      simp at hc
    | some chunk =>
      cases err with
      | some e =>
        dsimp only
        refine ⟨hfr, hF, hI, fun c hc => by simp at hc, ?_⟩
        intro hr
        obtain ⟨c, hc⟩ := hrd hr
        simp at hc
      | none =>
        dsimp only
        obtain ⟨ifr, iF, iI, ic, ird⟩ := ih w1
        refine ⟨hfr.trans ifr, iF.trans hF, ?_, ?_, ?_⟩
        · intro hw
          have h1 := hI hw
          have h2 := iI (hfr.2.1.trans hw)
          exact ⟨h2.1.trans h1.1, h2.2.trans h1.2⟩
        · intro c hcm
          simp only [List.mem_cons] at hcm
          rcases hcm with rfl | hcm
          · exact hc _ rfl
          · exact ic c hcm
        · intro hr
          exact ird (hfr.keeps_ready hr)

theorem flushRowGroup_idle {σ : Type} (enc : Encoders) (w : ParquetWriter σ)
    (h : w.BufRows = 0) : flushRowGroup enc w = (w, none) := by
  simp [flushRowGroup, h]

/-- What the flush of a row group does to the writer. -/
theorem flushRowGroup_spec {σ : Type} (enc : Encoders) (w : ParquetWriter σ) :
    Frame w (flushRowGroup enc w).1 ∧
    (w.DisableColumnIndex = true → w.NoIndex → (flushRowGroup enc w).1.NoIndex) ∧
    (w.Ready → (flushRowGroup enc w).2 = none) := by
  unfold flushRowGroup
  by_cases h0 : w.BufRows = 0
  · rw [if_pos h0]
    exact ⟨Frame.refl w, fun _ h => h, fun _ => rfl⟩
  · rw [if_neg h0]
    cases hsh : w.SchemaHandler with
    | none =>
      dsimp only
      refine ⟨Frame.refl w, fun _ h => h, ?_⟩
      intro hr
      obtain ⟨_, ⟨sh, hs⟩, _⟩ := hr
      rw [hsh] at hs
      cases hs
    | some sh =>
      dsimp only
      obtain ⟨hfr, hF, hI, hc, hrd⟩ := flushChunks_spec enc (sh.Leaves.zip w.Bufs) w
      generalize flushChunks enc w (sh.Leaves.zip w.Bufs) = r at hfr hF hI hc hrd
      obtain ⟨w1, chunks, err⟩ := r
      simp only at hfr hF hI hc hrd
      cases err with
      | some e =>
        dsimp only
        refine ⟨hfr, ?_, ?_⟩
        · intro hw hn
          obtain ⟨hci, hoi⟩ := hI hw
          exact ⟨hci.trans hn.1, hoi.trans hn.2.1, fun f hf => hn.2.2 f (hF ▸ hf)⟩
        · intro hr
          have := hrd hr
          simp at this
      | none =>
        dsimp only
        refine ⟨?_, ?_, fun _ => rfl⟩
        · refine ⟨hfr.1, hfr.2.1, ?_, hfr.2.2.2⟩
          intro hf
          obtain ⟨f1, hf1⟩ := hfr.2.2.1 hf
          rw [hf1]
          exact ⟨_, rfl⟩
        · intro hw hn
          obtain ⟨hci, hoi⟩ := hI hw
          refine ⟨hci.trans hn.1, hoi.trans hn.2.1, ?_⟩
          intro f hf rg hrg c hcm
          simp only [Option.map_eq_some'] at hf
          obtain ⟨f0, hf0, rfl⟩ := hf
          simp only [List.mem_append, List.mem_singleton] at hrg
          rcases hrg with hrg | rfl
          · exact hn.2.2 f0 (hF ▸ hf0) rg hrg c hcm
          · exact hc c hcm

/-- What `Write` does to the writer. -/
theorem Write_spec {σ : Type} (enc : Encoders) (w : ParquetWriter σ) (rec : Node) :
    Frame w (Write enc w rec).1 ∧
    (w.DisableColumnIndex = true → w.NoIndex → (Write enc w rec).1.NoIndex) := by
  unfold Write
  split
  · exact ⟨Frame.refl w, fun _ h => h⟩
  · exact ⟨Frame.refl w, fun _ h => h⟩
  · split
    · exact ⟨Frame.refl w, fun _ h => h⟩
    · split
      · exact ⟨Frame.refl w, fun _ h => h⟩
      · rename_i sh hsh ts hts
        dsimp only
        have hfr1 : Frame w { w with
            Bufs := appendBufs w.Bufs ts
            BufRows := w.BufRows + 1
            BufSize := w.BufSize + (enc.recordSize rec : Int)
            State := .Writing } := ⟨rfl, rfl, fun h => h, fun pf h => ⟨pf, h, rfl⟩⟩
        split
        · obtain ⟨hfr, hn, _⟩ := flushRowGroup_spec enc { w with
            Bufs := appendBufs w.Bufs ts
            BufRows := w.BufRows + 1
            BufSize := w.BufSize + (enc.recordSize rec : Int)
            State := .Writing }
          exact ⟨hfr1.trans hfr, fun hw h => hn hw h⟩
        · exact ⟨hfr1, fun _ h => h⟩

/-- What writing a list of blocks does to the writer. -/
theorem writeBlocks_spec {σ : Type} (bs : List (List Byte)) :
    ∀ w : ParquetWriter σ,
    Frame w (writeBlocks w bs).1 ∧
    (writeBlocks w bs).1.Footer = w.Footer ∧
    (writeBlocks w bs).1.ColumnIndexes = w.ColumnIndexes ∧
    (writeBlocks w bs).1.OffsetIndexes = w.OffsetIndexes ∧
    (w.Ready → (writeBlocks w bs).2.2 = none) := by
  induction bs with
  | nil =>
    intro w
    exact ⟨Frame.refl w, rfl, rfl, rfl, fun _ => rfl⟩
  | cons b rest ih =>
    intro w
    have hfr := emit_frame w b
    have hrd := emit_ready w b
    obtain ⟨kF, kC, kO, _, _, _, _⟩ := emit_keeps w b
    unfold writeBlocks
    generalize emit w b = r at hfr hrd kF kC kO
    obtain ⟨w1, err⟩ := r
    simp only at hfr hrd kF kC kO
    cases err with
    | some e =>
      dsimp only
      refine ⟨hfr, kF, kC, kO, ?_⟩
      intro hr
      have := (hrd hr).1
      simp at this
    | none =>
      dsimp only
      obtain ⟨ifr, iF, iC, iO, ird⟩ := ih w1
      exact ⟨hfr.trans ifr, iF.trans kF, iC.trans kC, iO.trans kO, fun hr => ird (hfr.keeps_ready hr)⟩

theorem writeIndexes_disabled {σ : Type} (enc : Encoders) (w : ParquetWriter σ)
    (h : w.DisableColumnIndex = true) : writeIndexes enc w = (w, none) := by
  simp [writeIndexes, h]

/-- What writing the index blocks does to the writer. -/
theorem writeIndexes_spec {σ : Type} (enc : Encoders) (w : ParquetWriter σ) :
    Frame w (writeIndexes enc w).1 ∧ (w.Ready → (writeIndexes enc w).2 = none) := by
  unfold writeIndexes
  by_cases hd : w.DisableColumnIndex = true
  · rw [if_pos hd]
    exact ⟨Frame.refl w, fun _ => rfl⟩
  · rw [if_neg hd]
    obtain ⟨hfr, _, _, _, hrd⟩ := writeBlocks_spec (w.ColumnIndexes.map enc.columnIndexBytes) w
    generalize writeBlocks w (w.ColumnIndexes.map enc.columnIndexBytes) = r at hfr hrd
    obtain ⟨w1, cls, err⟩ := r
    simp only at hfr hrd
    cases err with
    | some e =>
      dsimp only
      refine ⟨hfr, ?_⟩
      intro hr
      have := hrd hr
      simp at this
    | none =>
      dsimp only
      obtain ⟨hfr2, _, _, _, hrd2⟩ :=
        writeBlocks_spec (w1.OffsetIndexes.map enc.offsetIndexBytes) w1
      generalize writeBlocks w1 (w1.OffsetIndexes.map enc.offsetIndexBytes) = r2 at hfr2 hrd2
      obtain ⟨w2, ols, err2⟩ := r2
      simp only at hfr2 hrd2
      cases err2 with
      | some e =>
        dsimp only
        refine ⟨hfr.trans hfr2, ?_⟩
        intro hr
        have := hrd2 (hfr.keeps_ready hr)
        simp at this
      | none =>
        dsimp only
        refine ⟨?_, fun _ => rfl⟩
        have h12 := hfr.trans hfr2
        refine ⟨h12.1, h12.2.1, ?_, h12.2.2.2⟩
        intro hf
        obtain ⟨f1, hf1⟩ := h12.2.2.1 hf
        rw [hf1]
        exact ⟨_, rfl⟩

/-- What writing the end of the file does to the writer. -/
theorem writeFooter_spec {σ : Type} (enc : Encoders) (w : ParquetWriter σ) :
    Frame w (writeFooter enc w).1 ∧
    (writeFooter enc w).1.Footer = w.Footer ∧
    (writeFooter enc w).1.ColumnIndexes = w.ColumnIndexes ∧
    (writeFooter enc w).1.OffsetIndexes = w.OffsetIndexes ∧
    (w.Ready → (writeFooter enc w).2 = none) := by
  unfold writeFooter
  cases hf : w.Footer with
  | none =>
    dsimp only
    refine ⟨Frame.refl w, hf, rfl, rfl, ?_⟩
    intro hr
    obtain ⟨_, _, ⟨f, hf1⟩⟩ := hr
    rw [hf] at hf1
    cases hf1
  | some f =>
    dsimp only
    have hfr := emit_frame w (enc.footerBytes f)
    have hrd := emit_ready w (enc.footerBytes f)
    obtain ⟨kF, kC, kO, _, _, _, _⟩ := emit_keeps w (enc.footerBytes f)
    generalize emit w (enc.footerBytes f) = r at hfr hrd kF kC kO
    obtain ⟨w1, err⟩ := r
    simp only at hfr hrd kF kC kO
    cases err with
    | some e =>
      dsimp only
      refine ⟨hfr, kF.trans hf, kC, kO, ?_⟩
      intro hr
      have := (hrd hr).1
      simp at this
    | none =>
      dsimp only
      have hfr2 := emit_frame w1 (le32 (enc.footerBytes f).length)
      have hrd2 := emit_ready w1 (le32 (enc.footerBytes f).length)
      obtain ⟨kF2, kC2, kO2, _, _, _, _⟩ := emit_keeps w1 (le32 (enc.footerBytes f).length)
      generalize emit w1 (le32 (enc.footerBytes f).length) = r2 at hfr2 hrd2 kF2 kC2 kO2
      obtain ⟨w2, err2⟩ := r2
      simp only at hfr2 hrd2 kF2 kC2 kO2
      cases err2 with
      | some e =>
        dsimp only
        refine ⟨hfr.trans hfr2, (kF2.trans kF).trans hf, kC2.trans kC, kO2.trans kO, ?_⟩
        intro hr
        have := (hrd2 (hfr.keeps_ready hr)).1
        simp at this
      | none =>
        dsimp only
        have hfr3 := emit_frame w2 PAR1
        have hrd3 := emit_ready w2 PAR1
        obtain ⟨kF3, kC3, kO3, _, _, _, _⟩ := emit_keeps w2 PAR1
        refine ⟨(hfr.trans hfr2).trans hfr3, ((kF3.trans kF2).trans kF).trans hf,
          (kC3.trans kC2).trans kC, (kO3.trans kO2).trans kO, ?_⟩
        intro hr
        exact (hrd3 ((hfr.trans hfr2).keeps_ready hr)).1

theorem WriteStop_of_stopped {σ : Type} (enc : Encoders) (w : ParquetWriter σ)
    (h : w.State = .Stopped) : WriteStop enc w = (w, none) := by
  simp [WriteStop, h]

/-- What `WriteStop` does to the writer. -/
theorem WriteStop_spec {σ : Type} (enc : Encoders) (w : ParquetWriter σ) :
    Frame w (WriteStop enc w).1 ∧
    (w.DisableColumnIndex = true → w.NoIndex → (WriteStop enc w).1.NoIndex) ∧
    ((WriteStop enc w).2 = none → (WriteStop enc w).1.State = .Stopped) ∧
    (w.Ready → (∀ e, w.State ≠ .Failed e) → (WriteStop enc w).2 = none) := by
  unfold WriteStop
  split
  · rename_i hs
    exact ⟨Frame.refl w, fun _ h => h, fun _ => hs, fun _ _ => rfl⟩
  · rename_i e hs
    exact ⟨Frame.refl w, fun _ h => h, fun h => by simp at h, fun _ h => absurd hs (h e)⟩
  · obtain ⟨hfr, hn, hrd⟩ := flushRowGroup_spec enc w
    generalize flushRowGroup enc w = r at hfr hn hrd
    obtain ⟨w1, err⟩ := r
    simp only at hfr hn hrd
    cases err with
    | some e =>
      dsimp only
      refine ⟨hfr, hn, fun h => by simp at h, fun hr _ => ?_⟩
      have := hrd hr
      simp at this
    | none =>
      dsimp only
      obtain ⟨hfr2, hrd2⟩ := writeIndexes_spec enc w1
      have hdis := writeIndexes_disabled enc w1
      generalize writeIndexes enc w1 = r2 at hfr2 hrd2 hdis
      obtain ⟨w2, err2⟩ := r2
      simp only at hfr2 hrd2
      have hn2 : w.DisableColumnIndex = true → w.NoIndex → w2.NoIndex := by
        intro hw h
        have := hdis (hfr.2.1.trans hw)
        simp only [Prod.mk.injEq] at this
        rw [this.1]
        exact hn hw h
      cases err2 with
      | some e =>
        dsimp only
        refine ⟨hfr.trans hfr2, hn2, fun h => by simp at h, fun hr _ => ?_⟩
        have := hrd2 (hfr.keeps_ready hr)
        simp at this
      | none =>
        dsimp only
        obtain ⟨hfr3, kF, kC, kO, hrd3⟩ := writeFooter_spec enc w2
        generalize writeFooter enc w2 = r3 at hfr3 kF kC kO hrd3
        obtain ⟨w3, err3⟩ := r3
        simp only at hfr3 kF kC kO hrd3
        have hn3 : w.DisableColumnIndex = true → w.NoIndex → w3.NoIndex := by
          intro hw h
          obtain ⟨a, b, c⟩ := hn2 hw h
          exact ⟨kC.trans a, kO.trans b, fun f hf => c f (kF ▸ hf)⟩
        cases err3 with
        | some e =>
          dsimp only
          refine ⟨(hfr.trans hfr2).trans hfr3, hn3, fun h => by simp at h, fun hr _ => ?_⟩
          have := hrd3 ((hfr.trans hfr2).keeps_ready hr)
          simp at this
        | none =>
          dsimp only
          have h123 := (hfr.trans hfr2).trans hfr3
          exact ⟨⟨h123.1, h123.2.1, h123.2.2.1, h123.2.2.2⟩, hn3, fun _ => rfl, fun _ _ => rfl⟩

/-- A reached writer has been opened. -/
theorem Reached.is_opened {σ : Type} {enc : Encoders}
    {parse : String → Option SchemaHandler × Option Error} {w : ParquetWriter σ}
    (h : Reached enc parse w) : w.Opened := by
  induction h with
  | construct js pfile np opts r jw hnew herr hres =>
    unfold NewJSONWriter at hnew
    dsimp only at hnew
    split at hnew
    · simp only [Option.some.injEq] at hnew
      subst hnew
      simp at herr
    · split at hnew
      · cases hnew
      · simp only [Option.some.injEq] at hnew
        subst hnew
        simp only [Option.some.injEq] at hres
        subst hres
        rename_i sh hsh
        exact ⟨⟨_, rfl⟩, ⟨sh, hsh⟩, ⟨_, rfl⟩⟩
  | write w rec _ _ ih => exact (Write_spec enc w rec).1.keeps_opened ih


/-! ## Stopping the writer -/

/-- `WriteStop` on a writer that is open on a sink accepting writes in full,
with nothing buffered, no index held and no row group in its footer: it
succeeds, the footer is unchanged, and the sink receives the footer, its
length and the magic, in three writes. -/
theorem WriteStop_empty {σ : Type} (enc : Encoders) (w : ParquetWriter σ)
    (pf : ParquetFile σ) (f : FileMetaData)
    (hstate : w.State = .Open) (hbuf : w.BufRows = 0)
    (hci : w.ColumnIndexes = []) (hoi : w.OffsetIndexes = [])
    (hpf : w.PFile = some pf) (hacc : pf.AcceptsInFull)
    (hf : w.Footer = some f) (hrg : f.RowGroups = []) :
    (WriteStop enc w).2 = none ∧
    (WriteStop enc w).1.State = .Stopped ∧
    (WriteStop enc w).1.Footer = some f ∧
    (WriteStop enc w).1.PFile.map (fun p => p.calls) =
      some (pf.calls ++ [enc.footerBytes f, le32 (enc.footerBytes f).length, PAR1]) := by
  have hacc2 : ∀ s p, (pf.write s p).2.2 = none := fun s p => by rw [hacc s p]
  have hfe : ({ f with RowGroups := recordIndexLocs f.RowGroups [] [] } : FileMetaData) = f := by
    cases f
    simp only at hrg
    subst hrg
    rfl
  by_cases hd : w.DisableColumnIndex = true
  · simp [WriteStop, hstate, flushRowGroup, hbuf, writeIndexes, hd, writeFooter, hf, emit, hpf,
      ParquetFile.Write, hacc2]
  · simp [WriteStop, hstate, flushRowGroup, hbuf, writeIndexes, hd, hci, hoi, writeBlocks,
      writeFooter, hf, emit, hpf, ParquetFile.Write, hacc2, hfe]

theorem configOnly_nil {σ : Type} : ConfigOnly ([] : List (ParquetWriterOption σ)) :=
  ⟨rfl, rfl, rfl, rfl⟩

theorem configOnly_disable {σ : Type} (b : Bool) :
    ConfigOnly ([WithDisableColumnIndex b] : List (ParquetWriterOption σ)) :=
  ⟨rfl, rfl, rfl, rfl⟩

theorem bufferFile_accepts : bufferFile.AcceptsInFull := fun _ _ => rfl

/-- C6 (amended). For every schema that parses, the footer of the freshly
constructed writer has `num_rows = 0` and an empty row-group list, on every
sink; and when the sink accepts writes in full and the options only configure,
the construction succeeds, `WriteStop` with no `Write` in between returns
success, and the file it completes is the magic, the footer with
`num_rows = 0` and zero row groups, the footer's length and the magic. -/
theorem zero_rows_file {σ : Type} (enc : Encoders)
    (parse : String → Option SchemaHandler × Option Error) (js : String) (sh : SchemaHandler)
    (pfile : ParquetFile σ) (np : Int) (opts : List (ParquetWriterOption σ))
    (hparse : parse js = (some sh, none)) :
    ∃ r jw f, NewJSONWriter parse js pfile np opts = some r ∧ r.res = some jw ∧
      jw.ParquetWriter.Footer = some f ∧ f.NumRows = 0 ∧ f.RowGroups = [] ∧
      (pfile.AcceptsInFull → ConfigOnly opts →
        r.err = none ∧
        (WriteStop enc jw.ParquetWriter).2 = none ∧
        (WriteStop enc jw.ParquetWriter).1.Footer = some f ∧
        (WriteStop enc jw.ParquetWriter).1.PFile.map (fun p => p.calls) =
          some (pfile.calls ++
            [PAR1, enc.footerBytes f, le32 (enc.footerBytes f).length, PAR1])) := by
  refine ⟨_, _, _, NewJSONWriter_parsed parse js sh pfile np opts hparse, rfl, rfl, rfl, rfl, ?_⟩
  intro hacc hcfg
  obtain ⟨hst, hbuf, hci, hoi⟩ := hcfg
  have hacc1 : (pfile.Write PAR1).1.AcceptsInFull := hacc
  have hw := WriteStop_empty enc
    { applyOpts opts ParquetWriter.zero with
        SchemaHandler := some sh
        PFile := some (pfile.Write PAR1).1
        PageSize := 8192
        RowGroupSize := 134217728
        CompressionType := .SNAPPY
        PagesMapBuf := some []
        DictRecs := some []
        NP := np
        Footer := some { Version := 1, Schema := sh.SchemaElements, NumRows := 0,
                         RowGroups := [] }
        Offset := 4
        MarshalFunc := some .MarshalJSON }
    (pfile.Write PAR1).1 _ hst hbuf hci hoi rfl hacc1 rfl rfl
  refine ⟨?_, hw.1, hw.2.2.1, ?_⟩
  · have := hacc pfile.state PAR1
    simp only [ParquetFile.Write]
    rw [this]
  · rw [hw.2.2.2]
    simp [ParquetFile.Write]

/-- Witness of C6: the buffer sink, no option. -/
theorem zero_rows_file_witness :
    ∃ r jw f, NewJSONWriter demoParse "s" bufferFile 1 [] = some r ∧ r.res = some jw ∧
      jw.ParquetWriter.Footer = some f ∧ f.NumRows = 0 ∧ f.RowGroups = [] ∧
      r.err = none ∧
      (WriteStop demoEnc jw.ParquetWriter).2 = none ∧
      (WriteStop demoEnc jw.ParquetWriter).1.Footer = some f ∧
      (WriteStop demoEnc jw.ParquetWriter).1.PFile.map (fun p => p.calls) =
        some (bufferFile.calls ++
          [PAR1, demoEnc.footerBytes f, le32 (demoEnc.footerBytes f).length, PAR1]) := by
  obtain ⟨r, jw, f, h1, h2, h3, h4, h5, h6⟩ :=
    zero_rows_file demoEnc demoParse "s" demoHandler bufferFile 1 [] (by decide)
  exact ⟨r, jw, f, h1, h2, h3, h4, h5, h6 bufferFile_accepts configOnly_nil⟩

/-- C6, as stated, fails: on a sink with room for one write only the
construction succeeds, and `WriteStop` on the fresh writer returns the sink's
error. -/
theorem WriteStop_on_fresh_writer_fails :
    (NewJSONWriter demoParse "s" (boundedFile 1) 1 []).map (fun r => r.err) = some none ∧
    (WriteStop demoEnc (writerOn (boundedFile 1))).2 = some errNoSpace :=
  ⟨rfl, rfl⟩

/-- What a run of `Write` calls does to the writer. -/
theorem writeAll_spec {σ : Type} (enc : Encoders) (recs : List Node) :
    ∀ w : ParquetWriter σ,
    Frame w (writeAll enc w recs) ∧
    (w.DisableColumnIndex = true → w.NoIndex → (writeAll enc w recs).NoIndex) := by
  induction recs with
  | nil =>
    intro w
    exact ⟨Frame.refl w, fun _ h => h⟩
  | cons rec rest ih =>
    intro w
    obtain ⟨hfr, hn⟩ := Write_spec enc w rec
    obtain ⟨ifr, ihn⟩ := ih (Write enc w rec).1
    refine ⟨hfr.trans ifr, fun hw h => ?_⟩
    exact ihn (hfr.2.1.trans hw) (hn hw h)

/-- C9. A writer constructed with the option `WithDisableColumnIndex(true)`
has the flag set when the constructor returns it; and whatever records are
then written, after `WriteStop` the flag is still set, the writer's
`ColumnIndexes` and `OffsetIndexes` are empty, and every column chunk of every
row group of the footer has `ColumnIndexOffset`, `ColumnIndexLength`,
`OffsetIndexOffset` and `OffsetIndexLength` all absent. -/
theorem disable_column_index {σ : Type} (enc : Encoders)
    (parse : String → Option SchemaHandler × Option Error) (js : String) (sh : SchemaHandler)
    (pfile : ParquetFile σ) (np : Int)
    (hparse : parse js = (some sh, none)) :
    ∃ r jw, NewJSONWriter parse js pfile np [WithDisableColumnIndex true] = some r ∧
      r.res = some jw ∧
      jw.ParquetWriter.DisableColumnIndex = true ∧
      ∀ recs : List Node,
        (WriteStop enc (writeAll enc jw.ParquetWriter recs)).1.DisableColumnIndex = true ∧
        (WriteStop enc (writeAll enc jw.ParquetWriter recs)).1.ColumnIndexes = [] ∧
        (WriteStop enc (writeAll enc jw.ParquetWriter recs)).1.OffsetIndexes = [] ∧
        ∀ f, (WriteStop enc (writeAll enc jw.ParquetWriter recs)).1.Footer = some f →
          ∀ rg ∈ f.RowGroups, ∀ c ∈ rg.Columns,
            c.ColumnIndexOffset = none ∧ c.ColumnIndexLength = none ∧
            c.OffsetIndexOffset = none ∧ c.OffsetIndexLength = none := by
  refine ⟨_, _, NewJSONWriter_parsed parse js sh pfile np _ hparse, rfl, rfl, ?_⟩
  intro recs
  generalize hw0 : ({ applyOpts [WithDisableColumnIndex true] ParquetWriter.zero with
        SchemaHandler := some sh
        PFile := some (pfile.Write PAR1).1
        PageSize := 8192
        RowGroupSize := 134217728
        CompressionType := .SNAPPY
        PagesMapBuf := some []
        DictRecs := some []
        NP := np
        Footer := some { Version := 1, Schema := sh.SchemaElements, NumRows := 0,
                         RowGroups := [] }
        Offset := 4
        MarshalFunc := some .MarshalJSON } : ParquetWriter σ) = w0
  have hflag : w0.DisableColumnIndex = true := by subst hw0; rfl
  have hno : w0.NoIndex := by
    subst hw0
    refine ⟨rfl, rfl, ?_⟩
    intro f hf rg hrg
    simp only [Option.some.injEq] at hf
    subst hf
    simp at hrg
  obtain ⟨hfr, hn⟩ := writeAll_spec enc recs w0
  obtain ⟨sfr, sn, _, _⟩ := WriteStop_spec enc (writeAll enc w0 recs)
  have hflag1 := hfr.2.1.trans hflag
  have hno2 := sn hflag1 (hn hflag hno)
  exact ⟨sfr.2.1.trans hflag1, hno2.1, hno2.2.1, hno2.2.2⟩

/-- Witness of C9: the buffer sink. -/
theorem disable_column_index_witness :
    ∃ r jw, NewJSONWriter demoParse "s" bufferFile 1 [WithDisableColumnIndex true] = some r ∧
      r.res = some jw ∧
      jw.ParquetWriter.DisableColumnIndex = true ∧
      ∀ recs : List Node,
        (WriteStop demoEnc (writeAll demoEnc jw.ParquetWriter recs)).1.DisableColumnIndex
          = true ∧
        (WriteStop demoEnc (writeAll demoEnc jw.ParquetWriter recs)).1.ColumnIndexes = [] ∧
        (WriteStop demoEnc (writeAll demoEnc jw.ParquetWriter recs)).1.OffsetIndexes = [] ∧
        ∀ f, (WriteStop demoEnc (writeAll demoEnc jw.ParquetWriter recs)).1.Footer = some f →
          ∀ rg ∈ f.RowGroups, ∀ c ∈ rg.Columns,
            c.ColumnIndexOffset = none ∧ c.ColumnIndexLength = none ∧
            c.OffsetIndexOffset = none ∧ c.OffsetIndexLength = none :=
  disable_column_index demoEnc demoParse "s" demoHandler bufferFile 1 (by decide)

/-- C5 (amended). For every writer state reached by a successful construction
followed by successful `Write` calls: if the first `WriteStop` returns
success, the second returns success too and is a no-op, leaving the writer
and with it the bytes in the sink exactly as the first left them; and the
first `WriteStop` does return success when the sink accepts writes in full and
the writer has not failed. -/
theorem WriteStop_twice {σ : Type} (enc : Encoders)
    (parse : String → Option SchemaHandler × Option Error) (w : ParquetWriter σ)
    (hr : Reached enc parse w) :
    ((WriteStop enc w).2 = none →
      WriteStop enc (WriteStop enc w).1 = ((WriteStop enc w).1, none) ∧
      (WriteStop enc (WriteStop enc w).1).1.PFile = (WriteStop enc w).1.PFile) ∧
    ((∀ pf, w.PFile = some pf → pf.AcceptsInFull) → (∀ e, w.State ≠ .Failed e) →
      (WriteStop enc w).2 = none) := by
  obtain ⟨_, _, hstop, hok⟩ := WriteStop_spec enc w
  refine ⟨fun h => ?_, fun hacc hnf => ?_⟩
  · have := WriteStop_of_stopped enc _ (hstop h)
    exact ⟨this, by rw [this]⟩
  · obtain ⟨⟨pf, hpf⟩, hsh, hf⟩ := hr.is_opened
    exact hok ⟨⟨pf, hpf, hacc pf hpf⟩, hsh, hf⟩ hnf

theorem reached_bufferFile :
    Reached demoEnc demoParse (Write demoEnc (writerOn bufferFile) recX5).1 :=
  Reached.write _ _ (Reached.construct "s" bufferFile 1 [] _ _ rfl rfl rfl) rfl

/-- Witness of C5: one record written to the buffer sink, then two stops. -/
theorem WriteStop_twice_witness :
    Reached demoEnc demoParse (Write demoEnc (writerOn bufferFile) recX5).1 ∧
    (WriteStop demoEnc (Write demoEnc (writerOn bufferFile) recX5).1).2 = none ∧
    (WriteStop demoEnc (WriteStop demoEnc (Write demoEnc (writerOn bufferFile) recX5).1).1).2
      = none ∧
    (WriteStop demoEnc (WriteStop demoEnc (Write demoEnc (writerOn bufferFile) recX5).1).1).1.PFile
      = (WriteStop demoEnc (Write demoEnc (writerOn bufferFile) recX5).1).1.PFile :=
  ⟨reached_bufferFile, rfl,
    by rw [((WriteStop_twice demoEnc demoParse _ reached_bufferFile).1 rfl).1],
    ((WriteStop_twice demoEnc demoParse _ reached_bufferFile).1 rfl).2⟩

theorem reached_boundedFile :
    Reached demoEnc demoParse (Write demoEnc (writerOn (boundedFile 1)) recX5).1 :=
  Reached.write _ _ (Reached.construct "s" (boundedFile 1) 1 [] _ _ rfl rfl rfl) rfl

/-- C5, as stated, fails: on a sink with room for one write only, the
construction succeeds, a `Write` succeeds, and the first `WriteStop` returns
the sink's error. -/
theorem WriteStop_fails_when_sink_fails :
    Reached demoEnc demoParse (Write demoEnc (writerOn (boundedFile 1)) recX5).1 ∧
    (NewJSONWriter demoParse "s" (boundedFile 1) 1 []).map (fun r => r.err) = some none ∧
    (Write demoEnc (writerOn (boundedFile 1)) recX5).2 = none ∧
    (WriteStop demoEnc (Write demoEnc (writerOn (boundedFile 1)) recX5).1).2
      = some errNoSpace :=
  ⟨reached_boundedFile, rfl, rfl, rfl⟩

/-! ## Null counts and the column index -/

theorem maxDof_cons (p : String × FieldRepetitionType) (rest : List (String × FieldRepetitionType)) :
    maxDof (p :: rest) = maxDof rest + (if p.2 ≠ .REQUIRED then 1 else 0) := by
  simp [maxDof, List.countP_cons]

theorem resolvesNull_present (name : String) (rep : FieldRepetitionType)
    (rest : List (String × FieldRepetitionType)) (fields : List (String × Node)) (v : Node)
    (hl : lookupField name fields = some v) (hv : v ≠ .null) (hrep : rep ≠ .REPEATED) :
    resolvesNull ((name, rep) :: rest) (.group fields) = resolvesNull rest v := by
  conv_lhs => unfold resolvesNull
  rw [hl]
  cases v with
  | null => exact absurd rfl hv
  | prim x => cases rep <;> first | exact absurd rfl hrep | rfl
  | group fs => cases rep <;> first | exact absurd rfl hrep | rfl
  | list items => cases rep <;> first | exact absurd rfl hrep | rfl

theorem resolvesNull_absent (name : String) (rep : FieldRepetitionType)
    (rest : List (String × FieldRepetitionType)) (fields : List (String × Node))
    (hl : lookupField name fields = none ∨ lookupField name fields = some .null) :
    resolvesNull ((name, rep) :: rest) (.group fields) = true := by
  unfold resolvesNull
  rcases hl with hl | hl <;> rw [hl]

/-- On a path without repeated node, a record that marshals gives the leaf
exactly one triple, and the triple is below the maximal definition level
exactly when the leaf is null in the record. -/
theorem shred_flat (ty : PhysicalType) (path : List (String × FieldRepetitionType)) :
    (∀ p ∈ path, p.2 ≠ .REPEATED) → ∀ (rl r d : Nat) (node : Node) (ts : List Triple),
    shred ty path rl r d node = .ok ts →
    ∃ t, ts = [t] ∧ (t.D < d + maxDof path ↔ resolvesNull path node = true) := by
  induction path with
  | nil =>
    intro _ rl r d node ts h
    unfold shred at h
    split at h
    · split at h
      · simp only [Except.ok.injEq] at h
        subst h
        exact ⟨_, rfl, by simp [maxDof, resolvesNull]⟩
      · cases h
    · cases h
  | cons p rest ih =>
    intro hp rl r d node ts h
    obtain ⟨name, rep⟩ := p
    have hrest : ∀ q ∈ rest, q.2 ≠ .REPEATED := fun q hq => hp q (List.mem_cons_of_mem _ hq)
    have hrep : rep ≠ .REPEATED := hp (name, rep) (List.mem_cons_self _ _)
    unfold shred at h
    split at h
    · rename_i fields
      split at h
      · -- REQUIRED
        split at h
        · cases h
        · cases h
        · rename_i v hv hl
          obtain ⟨t, ht, hiff⟩ := ih hrest rl r d v ts h
          refine ⟨t, ht, ?_⟩
          rw [maxDof_cons, resolvesNull_present name _ rest fields v hl (fun e => hv e) hrep]
          simpa using hiff
      · -- OPTIONAL
        split at h
        · rename_i hl
          simp only [Except.ok.injEq] at h
          subst h
          refine ⟨_, rfl, ?_⟩
          rw [maxDof_cons, resolvesNull_absent name _ rest fields (Or.inl hl)]
          simp
        · rename_i hl
          simp only [Except.ok.injEq] at h
          subst h
          refine ⟨_, rfl, ?_⟩
          rw [maxDof_cons, resolvesNull_absent name _ rest fields (Or.inr hl)]
          simp
        · rename_i v hv hl
          obtain ⟨t, ht, hiff⟩ := ih hrest rl r (d + 1) v ts h
          refine ⟨t, ht, ?_⟩
          rw [maxDof_cons, resolvesNull_present name _ rest fields v hl (fun e => hv e) hrep]
          simp only [ne_eq, reduceCtorEq, not_false_eq_true, if_true]
          rw [← hiff]
          omega
      · exact absurd rfl hrep
    · cases h

/-- Slicing loses and reorders nothing: the pages, one after the other, are
the page under construction followed by the triples still to come. -/
theorem slicePages_flatten (enc : Encoders) (l : LeafInfo) (pageSize : Int)
    (ts : List Triple) :
    ∀ (seen : List Triple) (acc : Nat) (cur : List Triple),
      (slicePages enc l pageSize seen acc cur ts).flatten = cur ++ ts := by
  induction ts with
  | nil =>
    intro seen acc cur
    unfold slicePages
    split <;> simp_all
  | cons t rest ih =>
    intro seen acc cur
    unfold slicePages
    split
    · simp [ih]
    · simp [ih]

/-- No page is empty. -/
theorem slicePages_nonempty (enc : Encoders) (l : LeafInfo) (pageSize : Int)
    (ts : List Triple) :
    ∀ (seen : List Triple) (acc : Nat) (cur : List Triple),
      ∀ p ∈ slicePages enc l pageSize seen acc cur ts, p ≠ [] := by
  induction ts with
  | nil =>
    intro seen acc cur p hp
    unfold slicePages at hp
    split at hp
    · simp at hp
    · simp only [List.mem_singleton] at hp
      subst hp
      assumption
  | cons t rest ih =>
    intro seen acc cur p hp
    unfold slicePages at hp
    split at hp
    · simp only [List.mem_cons] at hp
      rcases hp with rfl | hp
      · simp
      · exact ih _ _ _ p hp
    · exact ih _ _ _ p hp

theorem chunkPages_flatten (enc : Encoders) (l : LeafInfo) (pageSize : Int)
    (ts : List Triple) : (chunkPages enc l pageSize ts).flatten = ts := by
  simp [chunkPages, slicePages_flatten]

/-- The null counts of the pages add up to the number of triples below the
maximal definition level in the pages taken together. -/
theorem sum_pageNullCount (l : LeafInfo) (pages : List (List Triple)) :
    (pages.map (pageNullCount l)).sum =
      ((pages.flatten.countP (fun t => t.D < l.maxD) : Nat) : Int) := by
  induction pages with
  | nil => simp
  | cons p rest ih =>
    simp only [List.map_cons, List.sum_cons, List.flatten_cons, List.countP_append, ih]
    simp [pageNullCount]

/-- When every run succeeded, there is one result per run. -/
theorem allOk_forall₂ {α β : Type} (f : α → Except Error β) :
    ∀ (xs : List α) (ys : List β), allOk (xs.map f) = .ok ys →
      List.Forall₂ (fun x y => f x = .ok y) xs ys := by
  intro xs
  induction xs with
  | nil =>
    intro ys h
    simp only [List.map_nil, allOk, Except.ok.injEq] at h
    subst h
    exact List.Forall₂.nil
  | cons x rest ih =>
    intro ys h
    simp only [List.map_cons] at h
    cases hx : f x with
    | error e =>
      rw [hx] at h
      simp [allOk] at h
    | ok y =>
      rw [hx] at h
      unfold allOk at h
      cases hr : allOk (rest.map f) with
      | error e =>
        rw [hr] at h
        simp at h
      | ok ys1 =>
        rw [hr] at h
        simp only [Except.ok.injEq] at h
        subst h
        exact List.Forall₂.cons hx (ih ys1 hr)

/-- For a leaf without repeated node on its path, the triples below the
maximal definition level are as many as the records in which the leaf is
null. -/
theorem countP_null_flat (l : LeafInfo) (hflat : ∀ p ∈ l.path, p.2 ≠ .REPEATED) :
    ∀ (recs : List Node) (tss : List (List Triple)),
      List.Forall₂ (fun rec ts => shredLeaf l rec = .ok ts) recs tss →
      tss.flatten.countP (fun t => t.D < l.maxD) = recs.countP (resolvesNull l.path) ∧
      tss.flatten.length = recs.length := by
  intro recs tss h
  induction h with
  | nil => simp
  | @cons rec ts recs1 tss1 hx _ ih =>
    obtain ⟨t, ht, hiff⟩ := shred_flat l.physType l.path hflat 0 0 0 rec ts hx
    subst ht
    simp only [Nat.zero_add] at hiff
    obtain ⟨ih1, ih2⟩ := ih
    have e1 : ([t] :: tss1).flatten = t :: tss1.flatten := by simp
    rw [e1, List.countP_cons, List.countP_cons, List.length_cons, List.length_cons, ih1, ih2]
    refine ⟨?_, rfl⟩
    congr 1
    by_cases hn : resolvesNull l.path rec = true
    · have : t.D < l.maxD := hiff.2 hn
      simp [hn, this]
    · have : ¬ t.D < l.maxD := fun hlt => hn (hiff.1 hlt)
      simp [hn, this]

theorem maxRof_eq_zero (path : List (String × FieldRepetitionType)) :
    maxRof path = 0 ↔ ∀ p ∈ path, p.2 ≠ .REPEATED := by
  simp [maxRof, List.countP_eq_zero]

theorem isNullPage_iff (page : List Triple) :
    isNullPage page = true ↔ ∀ t ∈ page, t.value = none := by
  simp [isNullPage, List.all_eq_true, Option.isNone_iff_eq_none]

/-- A page that is not a null page has a non-null value. -/
theorem pageValues_ne_nil (page : List Triple) (h : isNullPage page = false) :
    pageValues page ≠ [] := by
  induction page with
  | nil => simp [isNullPage] at h
  | cons t rest ih =>
    cases hv : t.value with
    | some v => simp [pageValues, List.filterMap_cons, hv]
    | none =>
      have : isNullPage rest = false := by
        simpa [isNullPage, hv] using h
      have := ih this
      simpa [pageValues, List.filterMap_cons, hv] using this

/-- When the assembly of a chunk succeeds with the index enabled, the column
index it appends is that of the chunk's pages. -/
theorem flushChunk_columnIndex {σ : Type} (enc : Encoders) (w : ParquetWriter σ)
    (l : LeafInfo) (ts : List Triple)
    (hok : (flushChunk enc w l ts).2.2 = none) (hen : w.DisableColumnIndex = false) :
    (flushChunk enc w l ts).1.ColumnIndexes =
      w.ColumnIndexes ++ [buildColumnIndex enc l (chunkPages enc l w.PageSize ts)] := by
  obtain ⟨_, kC, _, kD, _, _, _⟩ := emit_keeps w (enc.dictPageBytes l ts ++
    (List.map (enc.dataPageBytes l w.CompressionType) (chunkPages enc l w.PageSize ts)).flatten)
  unfold flushChunk at hok ⊢
  simp only at hok ⊢
  generalize emit w (enc.dictPageBytes l ts ++
    (List.map (enc.dataPageBytes l w.CompressionType) (chunkPages enc l w.PageSize ts)).flatten) = r
    at hok kC kD
  obtain ⟨w1, err⟩ := r
  simp only at kC kD
  cases err with
  | some e => simp at hok
  | none =>
    dsimp only
    have hd : ¬ w1.DisableColumnIndex = true := by
      rw [kD, hen]
      simp
    rw [if_neg hd]
    simp [kC]

/-! ## The records behind a chunk, and a run with the index disabled -/

/-- The triples `Write` buffers for a record are, leaf by leaf, the ones the
record gives the leaf. -/
theorem marshal_leaves (leaves : List LeafInfo) (rec : Node) (ts : List (List Triple))
    (h : marshal leaves rec = .ok ts) :
    List.Forall₂ (fun l t => shredLeaf l rec = .ok t) leaves ts :=
  allOk_forall₂ (fun l => shredLeaf l rec) leaves ts h

/-- A run on the buffer sink: three records, then `WriteStop`. With the index
enabled the sink receives the magic, the chunk, the two index blocks, the
footer, its length and the magic, and the chunk records where its index
blocks are; with the index disabled the two index blocks are not written and
the chunk has no index location. -/
theorem run_with_and_without_index :
    (WriteStop demoEnc (writeAll demoEnc (writerOn bufferFile) recsX)).1.PFile.map
        (fun p => p.calls) =
      some [[80, 65, 82, 49], [1, 0, 0], [1], [2], [7, 7, 1], [3, 0, 0, 0], [80, 65, 82, 49]] ∧
    (WriteStop demoEnc (writeAll demoEnc (writerOn bufferFile) recsX)).1.Footer.map
        (fun f => f.RowGroups.map (fun rg => rg.Columns.map (fun c => c.ColumnIndexOffset))) =
      some [[some 7]] ∧
    (WriteStop demoEnc (writeAll demoEnc
        (openedWriter (NewJSONWriter demoParse "s" bufferFile 1 [WithDisableColumnIndex true]))
        recsX)).1.PFile.map (fun p => p.calls) =
      some [[80, 65, 82, 49], [1, 0, 0], [7, 7, 1], [3, 0, 0, 0], [80, 65, 82, 49]] ∧
    (WriteStop demoEnc (writeAll demoEnc
        (openedWriter (NewJSONWriter demoParse "s" bufferFile 1 [WithDisableColumnIndex true]))
        recsX)).1.Footer.map
        (fun f => f.RowGroups.map (fun rg => rg.Columns.map (fun c => c.ColumnIndexOffset))) =
      some [[none]] :=
  ⟨rfl, rfl, rfl, rfl⟩


/-- The run of `TestNullCountsFromColumnIndex`: after the three entries the
row group's five chunks have the null counts `[2]`, `[1]`, unset, `[0]` and
unset, as the test expects, one row group of three rows, and no error. -/
theorem entries_null_counts :
    (flushRowGroup demoEnc (writeAll demoEnc entryWriter entries)).2 = none ∧
    (flushRowGroup demoEnc (writeAll demoEnc entryWriter entries)).1.ColumnIndexes.map
        (fun ci => ci.NullCounts) = [some [2], some [1], none, some [0], none] ∧
    (flushRowGroup demoEnc (writeAll demoEnc entryWriter entries)).1.Footer.map
        (fun f => (f.NumRows, f.RowGroups.map (fun rg => (rg.NumRows, rg.Columns.length)))) =
      some (3, [(3, 5)]) :=
  ⟨rfl, rfl, rfl⟩

/-! ## What `WriteStop` hands to the sink -/

/-- On a sink that accepts writes in full, `emit` hands the sink its data in
one more call. -/
theorem emit_calls {σ : Type} (w : ParquetWriter σ) (data : List Byte) (h : w.Ready)
    (cs : List (List Byte)) (hcs : w.PFile.map (fun p => p.calls) = some cs) :
    (emit w data).1.PFile.map (fun p => p.calls) = some (cs ++ [data]) := by
  obtain ⟨⟨pf, hpf, hacc⟩, _, _⟩ := h
  have h2 : (pf.Write data).2.2 = none := by
    have := hacc pf.state data
    simp only [ParquetFile.Write]
    rw [this]
  rw [hpf] at hcs
  simp only [Option.map_some', Option.some.injEq] at hcs
  subst hcs
  rw [emit_ok w data pf hpf h2]
  rfl

/-- On a sink that accepts writes in full, the blocks are handed to the sink
one call each, in order. -/
theorem writeBlocks_calls {σ : Type} (bs : List (List Byte)) :
    ∀ (w : ParquetWriter σ), w.Ready → ∀ cs : List (List Byte),
      w.PFile.map (fun p => p.calls) = some cs →
      (writeBlocks w bs).1.PFile.map (fun p => p.calls) = some (cs ++ bs) := by
  induction bs with
  | nil =>
    intro w _ cs hcs
    simpa [writeBlocks] using hcs
  | cons b rest ih =>
    intro w hr cs hcs
    have hfr := emit_frame w b
    have hrd := (emit_ready w b hr).1
    have hc := emit_calls w b hr cs hcs
    unfold writeBlocks
    generalize emit w b = r at hfr hrd hc
    obtain ⟨w1, err⟩ := r
    simp only at hfr hrd hc
    subst hrd
    dsimp only
    have := ih w1 (hfr.keeps_ready hr) (cs ++ [b]) hc
    simpa using this

/-- With the index enabled and on a sink that accepts writes in full, the
column indexes the writer holds, then its offset indexes, are handed to the
sink, one call each, in order. -/
theorem writeIndexes_calls {σ : Type} (enc : Encoders) (w : ParquetWriter σ) (hr : w.Ready)
    (hen : w.DisableColumnIndex = false) (cs : List (List Byte))
    (hcs : w.PFile.map (fun p => p.calls) = some cs) :
    (writeIndexes enc w).1.PFile.map (fun p => p.calls) =
      some (cs ++ w.ColumnIndexes.map enc.columnIndexBytes ++
        w.OffsetIndexes.map enc.offsetIndexBytes) := by
  obtain ⟨hfr, _, _, kO, hrd⟩ := writeBlocks_spec (w.ColumnIndexes.map enc.columnIndexBytes) w
  have hc := writeBlocks_calls (w.ColumnIndexes.map enc.columnIndexBytes) w hr cs hcs
  have hok := hrd hr
  have hd : ¬ w.DisableColumnIndex = true := by
    rw [hen]
    simp
  unfold writeIndexes
  rw [if_neg hd]
  generalize writeBlocks w (w.ColumnIndexes.map enc.columnIndexBytes) = r at hfr kO hc hok
  obtain ⟨w1, cls, err⟩ := r
  simp only at hfr kO hc hok
  subst hok
  dsimp only
  have hr1 := hfr.keeps_ready hr
  obtain ⟨_, _, _, _, hrd2⟩ := writeBlocks_spec (w1.OffsetIndexes.map enc.offsetIndexBytes) w1
  have hc2 := writeBlocks_calls (w1.OffsetIndexes.map enc.offsetIndexBytes) w1 hr1 _ hc
  have hok2 := hrd2 hr1
  generalize writeBlocks w1 (w1.OffsetIndexes.map enc.offsetIndexBytes) = r2 at hc2 hok2
  obtain ⟨w2, ols, err2⟩ := r2
  simp only at hc2 hok2
  subst hok2
  dsimp only
  rw [hc2, kO]

/-- On a sink that accepts writes in full, the end of the file is handed to
the sink in three calls: the footer, its length and the magic. -/
theorem writeFooter_calls {σ : Type} (enc : Encoders) (w : ParquetWriter σ) (hr : w.Ready)
    (f : FileMetaData) (hf : w.Footer = some f) (cs : List (List Byte))
    (hcs : w.PFile.map (fun p => p.calls) = some cs) :
    (writeFooter enc w).1.PFile.map (fun p => p.calls) =
      some (cs ++ [enc.footerBytes f, le32 (enc.footerBytes f).length, PAR1]) := by
  unfold writeFooter
  rw [hf]
  dsimp only
  have hfr := emit_frame w (enc.footerBytes f)
  have hrd := (emit_ready w (enc.footerBytes f) hr).1
  have hc := emit_calls w (enc.footerBytes f) hr cs hcs
  generalize emit w (enc.footerBytes f) = r at hfr hrd hc
  obtain ⟨w1, err⟩ := r
  simp only at hfr hrd hc
  subst hrd
  dsimp only
  have hr1 := hfr.keeps_ready hr
  have hfr2 := emit_frame w1 (le32 (enc.footerBytes f).length)
  have hrd2 := (emit_ready w1 (le32 (enc.footerBytes f).length) hr1).1
  have hc2 := emit_calls w1 (le32 (enc.footerBytes f).length) hr1 _ hc
  generalize emit w1 (le32 (enc.footerBytes f).length) = r2 at hfr2 hrd2 hc2
  obtain ⟨w2, err2⟩ := r2
  simp only at hfr2 hrd2 hc2
  subst hrd2
  dsimp only
  have hc3 := emit_calls w2 PAR1 (hfr2.keeps_ready hr1) _ hc2
  rw [hc3]
  simp

/-- `WriteStop` with the index enabled, on a writer that has neither been
stopped nor failed and whose sink accepts writes in full: it succeeds, and
after the flush of the residual row group the sink is handed the column indexes
the writer then holds, its offset indexes, the footer, its length and the
magic, one call each, in this order. -/
theorem WriteStop_writes_indexes {σ : Type} (enc : Encoders) (w : ParquetWriter σ)
    (hr : w.Ready) (hstate : w.State = .Open ∨ w.State = .Writing)
    (hen : w.DisableColumnIndex = false) :
    (WriteStop enc w).2 = none ∧
    ∃ cs f, (flushRowGroup enc w).1.PFile.map (fun p => p.calls) = some cs ∧
      (WriteStop enc w).1.Footer = some f ∧
      (WriteStop enc w).1.PFile.map (fun p => p.calls) =
        some (cs ++ (flushRowGroup enc w).1.ColumnIndexes.map enc.columnIndexBytes ++
          (flushRowGroup enc w).1.OffsetIndexes.map enc.offsetIndexBytes ++
          [enc.footerBytes f, le32 (enc.footerBytes f).length, PAR1]) := by
  obtain ⟨hfr, _, hrd⟩ := flushRowGroup_spec enc w
  have hok := hrd hr
  have hr1 := hfr.keeps_ready hr
  have hen1 := hfr.2.1.trans hen
  have hns : w.State ≠ .Stopped := by
    rcases hstate with h | h <;> rw [h] <;> simp
  have hnf : ∀ e, w.State ≠ .Failed e := by
    intro e
    rcases hstate with h | h <;> rw [h] <;> simp
  unfold WriteStop
  split
  · rename_i hs
    exact absurd hs hns
  · rename_i e hs
    exact absurd hs (hnf e)
  clear hns hnf
  generalize flushRowGroup enc w = r at hok hr1 hen1
  obtain ⟨w1, err⟩ := r
  simp only at hok hr1 hen1
  subst hok
  dsimp only
  obtain ⟨⟨pf1, hpf1, _⟩, _, _⟩ := id hr1
  have hcs1 : w1.PFile.map (fun p => p.calls) = some pf1.calls := by rw [hpf1]; rfl
  obtain ⟨hfr2, hrd2⟩ := writeIndexes_spec enc w1
  have hok2 := hrd2 hr1
  have hr2 := hfr2.keeps_ready hr1
  have hc2 := writeIndexes_calls enc w1 hr1 hen1 _ hcs1
  generalize writeIndexes enc w1 = r2 at hok2 hr2 hc2
  obtain ⟨w2, err2⟩ := r2
  simp only at hok2 hr2 hc2
  subst hok2
  dsimp only
  obtain ⟨_, _, f, hf⟩ := id hr2
  obtain ⟨_, kF, _, _, hrd3⟩ := writeFooter_spec enc w2
  have hok3 := hrd3 hr2
  have hc3 := writeFooter_calls enc w2 hr2 f hf _ hc2
  generalize writeFooter enc w2 = r3 at hok3 kF hc3
  obtain ⟨w3, err3⟩ := r3
  simp only at hok3 kF hc3
  subst hok3
  dsimp only
  exact ⟨rfl, pf1.calls, f, hcs1, kF.trans hf, hc3⟩

/-! ## One row group through the write path -/

theorem leafStream_nil (l : LeafInfo) : leafStream l [] = [] := rfl

theorem leafStream_append (l : LeafInfo) (a b : List Node) :
    leafStream l (a ++ b) = leafStream l a ++ leafStream l b := by
  simp [leafStream]

theorem leafStream_singleton (l : LeafInfo) (rec : Node) :
    leafStream l [rec] = triplesOf l rec := by
  simp [leafStream]

theorem totalSize_append (enc : Encoders) (a b : List Node) :
    totalSize enc (a ++ b) = totalSize enc a + totalSize enc b := by
  simp [totalSize]

theorem totalSize_nonneg (enc : Encoders) (a : List Node) : 0 ≤ totalSize enc a := by
  induction a with
  | nil => simp [totalSize]
  | cons x rest ih =>
    simp only [totalSize, List.map_cons, List.sum_cons] at ih ⊢
    have : (0 : Int) ≤ (enc.recordSize x : Int) := Int.ofNat_nonneg _
    omega

/-- The triples the marshaller returns for a record are, leaf by leaf, the
triples the record gives the leaf. -/
theorem marshal_eq_triplesOf (leaves : List LeafInfo) (rec : Node) (ts : List (List Triple))
    (h : marshal leaves rec = .ok ts) :
    ts = leaves.map (fun l => triplesOf l rec) ∧
    ∀ l ∈ leaves, shredLeaf l rec = .ok (triplesOf l rec) := by
  have hf := allOk_forall₂ (fun l => shredLeaf l rec) leaves ts h
  clear h
  induction hf with
  | nil => exact ⟨rfl, fun l hl => by simp at hl⟩
  | @cons l t ls tss hx _ ih =>
    have ht : triplesOf l rec = t := by simp [triplesOf, hx]
    refine ⟨by simp [ht, ih.1.symm], ?_⟩
    intro l1 hl1
    simp only [List.mem_cons] at hl1
    rcases hl1 with rfl | hl1
    · rw [ht]; exact hx
    · exact ih.2 l1 hl1

/-- Appending a record's triples to buffers that hold the streams of the
records before it gives the streams with the record added. -/
theorem appendBufs_streams (leaves : List LeafInfo) (pending : List Node) (rec : Node) :
    appendBufs (leaves.map (fun l => leafStream l pending))
        (leaves.map (fun l => triplesOf l rec)) =
      leaves.map (fun l => leafStream l (pending ++ [rec])) := by
  induction leaves with
  | nil => rfl
  | cons l rest ih =>
    simp only [List.map_cons, appendBufs, ih, leafStream_append, leafStream_singleton]

theorem appendBufs_nil_left (ts : List (List Triple)) : appendBufs [] ts = ts := by
  cases ts <;> rfl

/-- A `Write` the marshaller accepts, on a writer that is neither stopped nor
failed: the record is buffered, and the row group is flushed if the estimated
size has reached `RowGroupSize`. -/
theorem Write_accept {σ : Type} (enc : Encoders) (w : ParquetWriter σ) (sh : SchemaHandler)
    (rec : Node) (ts : List (List Triple))
    (hstate : w.State = .Open ∨ w.State = .Writing) (hsh : w.SchemaHandler = some sh)
    (hm : marshal sh.Leaves rec = .ok ts) :
    Write enc w rec =
      if w.RowGroupSize ≤ w.BufSize + (enc.recordSize rec : Int) then
        flushRowGroup enc
          { w with
              Bufs := appendBufs w.Bufs ts
              BufRows := w.BufRows + 1
              BufSize := w.BufSize + (enc.recordSize rec : Int)
              State := .Writing }
      else
        ({ w with
            Bufs := appendBufs w.Bufs ts
            BufRows := w.BufRows + 1
            BufSize := w.BufSize + (enc.recordSize rec : Int)
            State := .Writing }, none) := by
  unfold Write
  rcases hstate with hs | hs <;> simp [hs, hsh, hm]

/-- The first `Write` of a row group: the record is buffered, alone. -/
theorem Write_start {σ : Type} (enc : Encoders) (w : ParquetWriter σ) (sh : SchemaHandler)
    (rec : Node) (ts : List (List Triple)) (hw : w.AtRowGroupStart sh)
    (hm : marshal sh.Leaves rec = .ok ts) :
    Write enc w rec =
      if w.RowGroupSize ≤ totalSize enc [rec] then flushRowGroup enc (buffered enc w sh [rec])
      else (buffered enc w sh [rec], none) := by
  obtain ⟨_, hsh, hstate, _, hbufs, hrows, hsize⟩ := hw
  have hts := (marshal_eq_triplesOf sh.Leaves rec ts hm).1
  have hA : appendBufs w.Bufs ts = sh.Leaves.map (fun l => leafStream l [rec]) := by
    rcases hbufs with hb | hb
    · rw [hb, appendBufs_nil_left, hts]
      simp only [leafStream_singleton]
    · rw [hb, hts]
      have := appendBufs_streams sh.Leaves [] rec
      simpa [leafStream_nil] using this
  have hC : w.BufSize + (enc.recordSize rec : Int) = totalSize enc [rec] := by
    rw [hsize]
    simp [totalSize]
  have hB : w.BufRows + 1 = (([rec] : List Node).length : Int) := by
    rw [hrows]
    simp
  rw [Write_accept enc w sh rec ts hstate hsh hm, hA, hB, hC]
  rfl

/-- A later `Write` of a row group: the record joins the buffered ones. -/
theorem Write_buffered {σ : Type} (enc : Encoders) (w : ParquetWriter σ) (sh : SchemaHandler)
    (pending : List Node) (rec : Node) (ts : List (List Triple))
    (hsh : w.SchemaHandler = some sh) (hm : marshal sh.Leaves rec = .ok ts) :
    Write enc (buffered enc w sh pending) rec =
      if w.RowGroupSize ≤ totalSize enc (pending ++ [rec]) then
        flushRowGroup enc (buffered enc w sh (pending ++ [rec]))
      else (buffered enc w sh (pending ++ [rec]), none) := by
  have hts := (marshal_eq_triplesOf sh.Leaves rec ts hm).1
  have hA : appendBufs (buffered enc w sh pending).Bufs ts =
      sh.Leaves.map (fun l => leafStream l (pending ++ [rec])) := by
    rw [hts]
    exact appendBufs_streams sh.Leaves pending rec
  have hC : (buffered enc w sh pending).BufSize + (enc.recordSize rec : Int) =
      totalSize enc (pending ++ [rec]) := by
    rw [totalSize_append]
    simp [buffered, totalSize]
  have hB : (buffered enc w sh pending).BufRows + 1 = ((pending ++ [rec]).length : Int) := by
    simp [buffered]
  rw [Write_accept enc (buffered enc w sh pending) sh rec ts (Or.inr rfl) hsh hm, hA, hB, hC]
  rfl

theorem writeAll_snoc {σ : Type} (enc : Encoders) (w : ParquetWriter σ) (pre : List Node)
    (rec : Node) :
    writeAll enc w (pre ++ [rec]) = (Write enc (writeAll enc w pre) rec).1 := by
  simp [writeAll, List.foldl_append]

/-- While the estimated size of the records stays below `RowGroupSize`, the
records offered to `Write` are buffered and nothing is flushed. -/
theorem writeAll_below {σ : Type} (enc : Encoders) (w : ParquetWriter σ) (sh : SchemaHandler)
    (hw : w.AtRowGroupStart sh) :
    ∀ recs : List Node, recs ≠ [] →
      (∀ rec ∈ recs, ∃ ts, marshal sh.Leaves rec = .ok ts) →
      totalSize enc recs < w.RowGroupSize →
      writeAll enc w recs = buffered enc w sh recs := by
  intro recs
  induction recs using List.reverseRecOn with
  | nil => intro h; exact absurd rfl h
  | append_singleton pre rec ih =>
    intro _ hacc hlt
    obtain ⟨ts, hm⟩ := hacc rec (by simp)
    have hnot : ¬ w.RowGroupSize ≤ totalSize enc (pre ++ [rec]) := by omega
    rw [writeAll_snoc]
    by_cases hpre : pre = []
    · subst hpre
      have h0 : writeAll enc w [] = w := rfl
      rw [h0, Write_start enc w sh rec ts hw hm]
      simp only [List.nil_append] at hnot
      rw [if_neg hnot]
      rfl
    · have hlt1 : totalSize enc pre < w.RowGroupSize := by
        rw [totalSize_append] at hlt
        have := totalSize_nonneg enc [rec]
        omega
      rw [ih hpre (fun r hr => hacc r (by simp [hr])) hlt1,
        Write_buffered enc w sh pre rec ts hw.2.1 hm, if_neg hnot]

theorem emit_sizes {σ : Type} (w : ParquetWriter σ) (data : List Byte) :
    (emit w data).1.PageSize = w.PageSize ∧
    (emit w data).1.RowGroupSize = w.RowGroupSize := by
  rcases emit_cases w data with h | ⟨pf, e, _, h⟩ | ⟨pf, _, h⟩ <;> rw [h] <;> simp

/-- The assembly of a chunk keeps the page and row-group sizes, and on a sink
that accepts writes in full it keeps the state. -/
theorem flushChunk_keeps {σ : Type} (enc : Encoders) (w : ParquetWriter σ) (l : LeafInfo)
    (ts : List Triple) :
    (flushChunk enc w l ts).1.PageSize = w.PageSize ∧
    (flushChunk enc w l ts).1.RowGroupSize = w.RowGroupSize ∧
    (w.Ready → (flushChunk enc w l ts).1.State = w.State) := by
  have hs := emit_sizes w (enc.dictPageBytes l ts ++
    (List.map (enc.dataPageBytes l w.CompressionType) (chunkPages enc l w.PageSize ts)).flatten)
  have hrd := emit_ready w (enc.dictPageBytes l ts ++
    (List.map (enc.dataPageBytes l w.CompressionType) (chunkPages enc l w.PageSize ts)).flatten)
  unfold flushChunk
  simp only
  generalize emit w (enc.dictPageBytes l ts ++
    (List.map (enc.dataPageBytes l w.CompressionType) (chunkPages enc l w.PageSize ts)).flatten) = r
    at hs hrd
  obtain ⟨w1, err⟩ := r
  obtain ⟨hP, hR⟩ := hs
  simp only at hP hR hrd
  cases err with
  | some e => exact ⟨hP, hR, fun hr => (hrd hr).2.1⟩
  | none =>
    by_cases hd : w1.DisableColumnIndex = true
    · dsimp only
      rw [if_pos hd]
      exact ⟨hP, hR, fun hr => (hrd hr).2.1⟩
    · dsimp only
      rw [if_neg hd]
      exact ⟨hP, hR, fun hr => (hrd hr).2.1⟩

/-- On a sink that accepts writes in full and with the index enabled, the
chunks of a row group are all assembled, and the column index of each, built
from the pages of its triples, is appended in the order of the chunks. -/
theorem flushChunks_indexes {σ : Type} (enc : Encoders) (xs : List (LeafInfo × List Triple)) :
    ∀ w : ParquetWriter σ, w.Ready → w.DisableColumnIndex = false →
    (flushChunks enc w xs).2.2 = none ∧
    (flushChunks enc w xs).2.1.length = xs.length ∧
    (flushChunks enc w xs).1.ColumnIndexes =
      w.ColumnIndexes ++
        xs.map (fun x => buildColumnIndex enc x.1 (chunkPages enc x.1 w.PageSize x.2)) ∧
    (flushChunks enc w xs).1.PageSize = w.PageSize ∧
    (flushChunks enc w xs).1.RowGroupSize = w.RowGroupSize ∧
    (flushChunks enc w xs).1.State = w.State := by
  induction xs with
  | nil =>
    intro w _ _
    simp [flushChunks]
  | cons x rest ih =>
    intro w hr hen
    obtain ⟨l, ts⟩ := x
    obtain ⟨hfr, _, _, _, _, hrd⟩ := flushChunk_spec enc w l ts
    obtain ⟨c, hc⟩ := hrd hr
    have hci := flushChunk_columnIndex enc w l ts (by rw [hc]) hen
    obtain ⟨kP, kR, kS⟩ := flushChunk_keeps enc w l ts
    have kS := kS hr
    have hr1 := hfr.keeps_ready hr
    have hen1 := hfr.2.1.trans hen
    unfold flushChunks
    generalize flushChunk enc w l ts = r at hfr hc hci kP kR kS hr1 hen1
    obtain ⟨w1, oc, err⟩ := r
    simp only [Prod.mk.injEq] at hc
    obtain ⟨rfl, rfl⟩ := hc
    simp only at hci kP kR kS hr1 hen1
    obtain ⟨i1, i2, i3, i4, i5, i6⟩ := ih w1 hr1 hen1
    dsimp only
    refine ⟨i1, by simp [i2], ?_, i4.trans kP, i5.trans kR, i6.trans kS⟩
    rw [i3, hci, kP]
    simp

theorem zip_map_self {α β : Type} (f : α → β) (xs : List α) :
    xs.zip (xs.map f) = xs.map (fun x => (x, f x)) := by
  induction xs with
  | nil => rfl
  | cons x rest ih => simp [ih]

/-- The flush of a row group whose records are buffered, on a sink that
accepts writes in full and with the index enabled: it succeeds, every leaf's
column index, built from the pages of the triples the records give the leaf, is
appended in schema order, the footer gets a row group with one chunk per leaf
and as many rows as records, and the writer is at the start of the next row
group, with its sizes kept. -/
theorem flushRowGroup_buffered {σ : Type} (enc : Encoders) (w : ParquetWriter σ)
    (sh : SchemaHandler) (recs : List Node) (hw : w.AtRowGroupStart sh) (hne : recs ≠ []) :
    (flushRowGroup enc (buffered enc w sh recs)).2 = none ∧
    (flushRowGroup enc (buffered enc w sh recs)).1.ColumnIndexes =
      w.ColumnIndexes ++ sh.Leaves.map (fun l =>
        buildColumnIndex enc l (chunkPages enc l w.PageSize (leafStream l recs))) ∧
    (∃ f chunks, w.Footer = some f ∧ chunks.length = sh.Leaves.length ∧
      (flushRowGroup enc (buffered enc w sh recs)).1.Footer =
        some { f with
                NumRows := f.NumRows + (recs.length : Int)
                RowGroups := f.RowGroups ++
                  [{ Columns := chunks, NumRows := (recs.length : Int) }] }) ∧
    (flushRowGroup enc (buffered enc w sh recs)).1.AtRowGroupStart sh ∧
    (flushRowGroup enc (buffered enc w sh recs)).1.PageSize = w.PageSize ∧
    (flushRowGroup enc (buffered enc w sh recs)).1.RowGroupSize = w.RowGroupSize := by
  obtain ⟨hr, hsh, _, hen, _, _, _⟩ := hw
  have hrb : (buffered enc w sh recs).Ready := hr
  have henb : (buffered enc w sh recs).DisableColumnIndex = false := hen
  have hshb : (buffered enc w sh recs).SchemaHandler = some sh := hsh
  have hrows : ¬ (buffered enc w sh recs).BufRows = 0 := by
    cases recs with
    | nil => exact absurd rfl hne
    | cons a rest =>
      simp only [buffered, List.length_cons]
      omega
  have hzip : sh.Leaves.zip (buffered enc w sh recs).Bufs =
      sh.Leaves.map (fun l => (l, leafStream l recs)) :=
    zip_map_self (fun l => leafStream l recs) sh.Leaves
  obtain ⟨i1, i2, i3, i4, i5, i6⟩ :=
    flushChunks_indexes enc (sh.Leaves.zip (buffered enc w sh recs).Bufs)
      (buffered enc w sh recs) hrb henb
  obtain ⟨hfr, hF, _, _, _⟩ :=
    flushChunks_spec enc (sh.Leaves.zip (buffered enc w sh recs).Bufs) (buffered enc w sh recs)
  have hr1 := hfr.keeps_ready hrb
  have hlen : (sh.Leaves.zip (buffered enc w sh recs).Bufs).length = sh.Leaves.length := by
    rw [hzip, List.length_map]
  have hmap : (sh.Leaves.zip (buffered enc w sh recs).Bufs).map (fun x =>
        buildColumnIndex enc x.1 (chunkPages enc x.1 (buffered enc w sh recs).PageSize x.2)) =
      sh.Leaves.map (fun l =>
        buildColumnIndex enc l (chunkPages enc l w.PageSize (leafStream l recs))) := by
    rw [hzip, List.map_map]
    rfl
  rw [hlen] at i2
  rw [hmap] at i3
  obtain ⟨_, _, f, hf⟩ := hr
  unfold flushRowGroup
  rw [if_neg hrows, hshb]
  dsimp only
  generalize flushChunks enc (buffered enc w sh recs)
    (sh.Leaves.zip (buffered enc w sh recs).Bufs) = r at i1 i2 i3 i4 i5 i6 hfr hF hr1
  obtain ⟨w1, chunks, err⟩ := r
  simp only at i1 i2 i3 i4 i5 i6 hfr hF hr1
  subst i1
  dsimp only
  have hF1 : w1.Footer = some f := hF.trans hf
  refine ⟨rfl, i3, ⟨f, chunks, hf, i2, ?_⟩, ?_, i4, i5⟩
  · rw [hF1]
    rfl
  · obtain ⟨hp1, _, _⟩ := hr1
    refine ⟨⟨hp1, ⟨sh, hfr.1.trans hshb⟩, ?_⟩, hfr.1.trans hshb, Or.inr i6, hfr.2.1.trans henb,
      Or.inr rfl, rfl, rfl⟩
    rw [hF1]
    exact ⟨_, rfl⟩

/-- The records of one row group offered to `Write`: `recs` are offered on a
writer at the start of a row group, every one is accepted by the marshaller,
and the estimated size stays below `RowGroupSize` until the last one. If the
size has then reached `RowGroupSize` the last `Write` has flushed the row
group; if not, the records are buffered. -/
theorem writeAll_row_group {σ : Type} (enc : Encoders) (w : ParquetWriter σ)
    (sh : SchemaHandler) (recs : List Node) (hw : w.AtRowGroupStart sh) (hne : recs ≠ [])
    (hacc : ∀ rec ∈ recs, ∃ ts, marshal sh.Leaves rec = .ok ts)
    (hone : recs.dropLast ≠ [] → totalSize enc recs.dropLast < w.RowGroupSize) :
    writeAll enc w recs =
      if w.RowGroupSize ≤ totalSize enc recs then (flushRowGroup enc (buffered enc w sh recs)).1
      else buffered enc w sh recs := by
  obtain ⟨pre, rec, rfl⟩ : ∃ pre rec, recs = pre ++ [rec] :=
    ⟨recs.dropLast, recs.getLast hne, (List.dropLast_append_getLast hne).symm⟩
  obtain ⟨ts, hm⟩ := hacc rec (by simp)
  rw [List.dropLast_concat] at hone
  rw [writeAll_snoc]
  by_cases hpre : pre = []
  · subst hpre
    have h0 : writeAll enc w [] = w := rfl
    rw [h0, Write_start enc w sh rec ts hw hm]
    simp only [List.nil_append]
    split <;> rfl
  · rw [writeAll_below enc w sh hw pre hpre (fun r hr => hacc r (by simp [hr])) (hone hpre),
      Write_buffered enc w sh pre rec ts hw.2.1 hm]
    split <;> rfl

/-- The records of one row group, from `Write` to the flush: whether the last
`Write` flushed the row group or the flush comes afterwards, the row group has
been flushed as `recs` buffered. -/
theorem row_group_flush {σ : Type} (enc : Encoders) (w : ParquetWriter σ)
    (sh : SchemaHandler) (recs : List Node) (hw : w.AtRowGroupStart sh) (hne : recs ≠ [])
    (hacc : ∀ rec ∈ recs, ∃ ts, marshal sh.Leaves rec = .ok ts)
    (hone : recs.dropLast ≠ [] → totalSize enc recs.dropLast < w.RowGroupSize) :
    flushRowGroup enc (writeAll enc w recs) =
      ((flushRowGroup enc (buffered enc w sh recs)).1, none) := by
  obtain ⟨hok, _, _, hstart, _, _⟩ := flushRowGroup_buffered enc w sh recs hw hne
  rw [writeAll_row_group enc w sh recs hw hne hacc hone]
  split
  · exact flushRowGroup_idle enc _ hstart.2.2.2.2.2.1
  · exact Prod.ext rfl hok

/-- After the flush of a row group the writer is at the start of the next,
with its page and row-group sizes kept. -/
theorem row_group_restart {σ : Type} (enc : Encoders) (w : ParquetWriter σ)
    (sh : SchemaHandler) (recs : List Node) (hw : w.AtRowGroupStart sh) (hne : recs ≠ [])
    (hacc : ∀ rec ∈ recs, ∃ ts, marshal sh.Leaves rec = .ok ts)
    (hone : recs.dropLast ≠ [] → totalSize enc recs.dropLast < w.RowGroupSize) :
    (flushRowGroup enc (writeAll enc w recs)).1.AtRowGroupStart sh ∧
    (flushRowGroup enc (writeAll enc w recs)).1.PageSize = w.PageSize ∧
    (flushRowGroup enc (writeAll enc w recs)).1.RowGroupSize = w.RowGroupSize := by
  obtain ⟨_, _, _, hstart, hP, hR⟩ := flushRowGroup_buffered enc w sh recs hw hne
  rw [row_group_flush enc w sh recs hw hne hacc hone]
  exact ⟨hstart, hP, hR⟩

/-- `WriteStop` after the records of one row group: it succeeds, and after the
flush of the row group the sink is handed the column indexes the writer then
holds, its offset indexes, the footer, its length and the magic, one call
each, in this order. -/
theorem row_group_stop {σ : Type} (enc : Encoders) (w : ParquetWriter σ)
    (sh : SchemaHandler) (recs : List Node) (hw : w.AtRowGroupStart sh) (hne : recs ≠ [])
    (hacc : ∀ rec ∈ recs, ∃ ts, marshal sh.Leaves rec = .ok ts)
    (hone : recs.dropLast ≠ [] → totalSize enc recs.dropLast < w.RowGroupSize) :
    (WriteStop enc (writeAll enc w recs)).2 = none ∧
    ∃ cs f,
      (flushRowGroup enc (writeAll enc w recs)).1.PFile.map (fun p => p.calls) = some cs ∧
      (WriteStop enc (writeAll enc w recs)).1.Footer = some f ∧
      (WriteStop enc (writeAll enc w recs)).1.PFile.map (fun p => p.calls) =
        some (cs ++
          (flushRowGroup enc (writeAll enc w recs)).1.ColumnIndexes.map enc.columnIndexBytes ++
          (flushRowGroup enc (writeAll enc w recs)).1.OffsetIndexes.map enc.offsetIndexBytes ++
          [enc.footerBytes f, le32 (enc.footerBytes f).length, PAR1]) := by
  obtain ⟨_, _, _, hstart, _, _⟩ := flushRowGroup_buffered enc w sh recs hw hne
  have hall : (writeAll enc w recs).Ready ∧
      ((writeAll enc w recs).State = .Open ∨ (writeAll enc w recs).State = .Writing) ∧
      (writeAll enc w recs).DisableColumnIndex = false := by
    rw [writeAll_row_group enc w sh recs hw hne hacc hone]
    split
    · exact ⟨hstart.1, hstart.2.2.1, hstart.2.2.2.1⟩
    · exact ⟨hw.1, Or.inr rfl, hw.2.2.2.1⟩
  exact WriteStop_writes_indexes enc (writeAll enc w recs) hall.1 hall.2.1 hall.2.2

/-- The writer `NewJSONWriter` returns with no option, for a schema that
parses and on a sink that accepts writes in full, is at the start of a row
group with the column index enabled. -/
theorem NewJSONWriter_at_row_group_start {σ : Type}
    (parse : String → Option SchemaHandler × Option Error) (js : String) (sh : SchemaHandler)
    (pfile : ParquetFile σ) (np : Int) (hparse : parse js = (some sh, none))
    (hacc : pfile.AcceptsInFull) :
    (openedWriter (NewJSONWriter parse js pfile np [])).AtRowGroupStart sh := by
  rw [NewJSONWriter_parsed parse js sh pfile np [] hparse]
  exact ⟨⟨⟨_, rfl, hacc⟩, ⟨_, rfl⟩, ⟨_, rfl⟩⟩, rfl, Or.inl rfl, rfl, Or.inl rfl, rfl, rfl⟩

/-- The column index of the chunk of the leaf at position `i` of the schema,
among the indexes of the writer after the flush of a row group. -/
theorem row_group_index_at {σ : Type} (enc : Encoders) (w : ParquetWriter σ)
    (sh : SchemaHandler) (recs : List Node) (hw : w.AtRowGroupStart sh) (hne : recs ≠ [])
    (hacc : ∀ rec ∈ recs, ∃ ts, marshal sh.Leaves rec = .ok ts)
    (hone : recs.dropLast ≠ [] → totalSize enc recs.dropLast < w.RowGroupSize)
    (i : Nat) (l : LeafInfo) (hl : sh.Leaves[i]? = some l) :
    (flushRowGroup enc (writeAll enc w recs)).1.ColumnIndexes[w.ColumnIndexes.length + i]? =
      some (buildColumnIndex enc l (chunkPages enc l w.PageSize (leafStream l recs))) := by
  rw [row_group_flush enc w sh recs hw hne hacc hone,
    (flushRowGroup_buffered enc w sh recs hw hne).2.1,
    List.getElem?_append_right (Nat.le_add_right _ _), Nat.add_sub_cancel_left,
    List.getElem?_map, hl]
  rfl

/-- For a leaf of the schema, every accepted record gives the leaf its
triples. -/
theorem shredLeaf_of_accepted (leaves : List LeafInfo) (recs : List Node)
    (hacc : ∀ rec ∈ recs, ∃ ts, marshal leaves rec = .ok ts) (l : LeafInfo) (hl : l ∈ leaves) :
    List.Forall₂ (fun rec ts => shredLeaf l rec = .ok ts) recs (recs.map (triplesOf l)) := by
  induction recs with
  | nil => exact List.Forall₂.nil
  | cons rec rest ih =>
    obtain ⟨ts, hm⟩ := hacc rec (List.mem_cons_self _ _)
    exact List.Forall₂.cons ((marshal_eq_triplesOf leaves rec ts hm).2 l hl)
      (ih (fun r hr => hacc r (List.mem_cons_of_mem _ hr)))

theorem maxDof_eq_zero (path : List (String × FieldRepetitionType)) :
    maxDof path = 0 ↔ ∀ p ∈ path, p.2 = .REQUIRED := by
  simp [maxDof, List.countP_eq_zero]

/-- C7 (amended). On a writer at the start of a row group, with the column
index enabled and a sink that accepts writes in full, let the records `recs`
of one row group (the estimated size stays below `RowGroupSize` until the last
of them) be offered to `Write`, all accepted by the marshaller, and the row
group be flushed, by the last `Write` or by the flush `WriteStop` starts with.
The flush succeeds and the footer gets a row group with one chunk per leaf and
`recs.length` rows; `WriteStop` succeeds and hands the sink, after the row
group, the column indexes the writer holds after the flush, one block each in
order, then the offset indexes and the end of the file. For the leaf at
position `i` of the schema the writer holds the `ColumnIndex` of its chunk, at
position `i` after the indexes it held before. With `omitstats` that index has
no `NullCounts`; without it `NullCounts` is set, has one entry per page, and
its entries add up to the number of null triples (`D < max_D`) the records give
the leaf. For a leaf without repeated node on its path (`max_R = 0`) that is
the number of records in which the leaf is null: 0 when every node of the path
is REQUIRED (`max_D = 0`), the record count when the leaf is null in every
record. -/
theorem null_counts_of_row_group {σ : Type} (enc : Encoders) (w : ParquetWriter σ)
    (sh : SchemaHandler) (recs : List Node) (hw : w.AtRowGroupStart sh) (hne : recs ≠ [])
    (hacc : ∀ rec ∈ recs, ∃ ts, marshal sh.Leaves rec = .ok ts)
    (hone : recs.dropLast ≠ [] → totalSize enc recs.dropLast < w.RowGroupSize) :
    (flushRowGroup enc (writeAll enc w recs)).2 = none ∧
    (∃ f chunks, w.Footer = some f ∧ chunks.length = sh.Leaves.length ∧
      (flushRowGroup enc (writeAll enc w recs)).1.Footer =
        some { f with
                NumRows := f.NumRows + (recs.length : Int)
                RowGroups := f.RowGroups ++
                  [{ Columns := chunks, NumRows := (recs.length : Int) }] }) ∧
    ((WriteStop enc (writeAll enc w recs)).2 = none ∧
      ∃ cs f,
        (flushRowGroup enc (writeAll enc w recs)).1.PFile.map (fun p => p.calls) = some cs ∧
        (WriteStop enc (writeAll enc w recs)).1.Footer = some f ∧
        (WriteStop enc (writeAll enc w recs)).1.PFile.map (fun p => p.calls) =
          some (cs ++
            (flushRowGroup enc (writeAll enc w recs)).1.ColumnIndexes.map
              enc.columnIndexBytes ++
            (flushRowGroup enc (writeAll enc w recs)).1.OffsetIndexes.map
              enc.offsetIndexBytes ++
            [enc.footerBytes f, le32 (enc.footerBytes f).length, PAR1])) ∧
    ∀ (i : Nat) (l : LeafInfo), sh.Leaves[i]? = some l →
      ∃ ci, (flushRowGroup enc (writeAll enc w recs)).1.ColumnIndexes[w.ColumnIndexes.length + i]?
          = some ci ∧
        (l.omitstats = true → ci.NullCounts = none) ∧
        (l.omitstats = false →
          ∃ nc, ci.NullCounts = some nc ∧
            nc.length = ci.NullPages.length ∧
            nc.length = (chunkPages enc l w.PageSize (leafStream l recs)).length ∧
            nc.sum = (((leafStream l recs).countP (fun t => t.D < l.maxD) : Nat) : Int) ∧
            (l.maxR = 0 → nc.sum = ((recs.countP (resolvesNull l.path) : Nat) : Int)) ∧
            ((∀ p ∈ l.path, p.2 = .REQUIRED) →
              nc.sum = 0 ∧ recs.countP (resolvesNull l.path) = 0) ∧
            (l.maxR = 0 → (∀ rec ∈ recs, resolvesNull l.path rec = true) →
              nc.sum = (recs.length : Int))) := by
  have hflush := row_group_flush enc w sh recs hw hne hacc hone
  obtain ⟨_, _, hfoot, _, _, _⟩ := flushRowGroup_buffered enc w sh recs hw hne
  refine ⟨by rw [hflush], by rw [hflush]; exact hfoot,
    row_group_stop enc w sh recs hw hne hacc hone, ?_⟩
  intro i l hl
  refine ⟨_, row_group_index_at enc w sh recs hw hne hacc hone i l hl, ?_, ?_⟩
  · intro ho
    simp [buildColumnIndex, ho]
  · intro ho
    have hmem : l ∈ sh.Leaves := List.getElem?_mem hl
    have hf2 := shredLeaf_of_accepted sh.Leaves recs hacc l hmem
    have hsum : ((chunkPages enc l w.PageSize (leafStream l recs)).map (pageNullCount l)).sum =
        (((leafStream l recs).countP (fun t => t.D < l.maxD) : Nat) : Int) := by
      rw [sum_pageNullCount, chunkPages_flatten]
    have hflatc : l.maxR = 0 →
        (leafStream l recs).countP (fun t => t.D < l.maxD) =
          recs.countP (resolvesNull l.path) := fun hr =>
      (countP_null_flat l ((maxRof_eq_zero l.path).1 hr) recs _ hf2).1
    have hzero : (∀ p ∈ l.path, p.2 = .REQUIRED) →
        (leafStream l recs).countP (fun t => t.D < l.maxD) = 0 := by
      intro hreq
      have hd : l.maxD = 0 := (maxDof_eq_zero l.path).2 hreq
      apply List.countP_eq_zero.2
      intro t _
      simp [hd]
    refine ⟨(chunkPages enc l w.PageSize (leafStream l recs)).map (pageNullCount l), ?_, ?_, ?_,
      hsum, ?_, ?_, ?_⟩
    · simp [buildColumnIndex, ho]
    · simp [buildColumnIndex]
    · simp
    · intro hr
      rw [hsum, hflatc hr]
    · intro hreq
      have hr : l.maxR = 0 := by
        apply (maxRof_eq_zero l.path).2
        intro p hp
        rw [hreq p hp]
        simp
      refine ⟨by rw [hsum, hzero hreq]; rfl, ?_⟩
      rw [← hflatc hr]
      exact hzero hreq
    · intro hr hall
      rw [hsum, hflatc hr]
      congr 1
      rw [List.countP_eq_length]
      exact hall

/-- Witness of C7: the writer and the three entries of
`TestNullCountsFromColumnIndex`. The optional `x` is null in two entries and
its null counts add up to 2; `z`, marked `omitstats`, has no null counts; the
required `u` has null counts that add up to 0. -/
theorem null_counts_of_row_group_witness :
    entryWriter.AtRowGroupStart entryHandler ∧
    (∀ rec ∈ entries, ∃ ts, marshal entryHandler.Leaves rec = .ok ts) ∧
    (flushRowGroup demoEnc (writeAll demoEnc entryWriter entries)).2 = none ∧
    (WriteStop demoEnc (writeAll demoEnc entryWriter entries)).2 = none ∧
    (∃ ci nc,
      (flushRowGroup demoEnc (writeAll demoEnc entryWriter entries)).1.ColumnIndexes[0]?
        = some ci ∧
      ci.NullCounts = some nc ∧ nc.sum = 2 ∧
      nc.sum = ((entries.countP (resolvesNull [("x", .OPTIONAL)]) : Nat) : Int)) ∧
    (∃ ci,
      (flushRowGroup demoEnc (writeAll demoEnc entryWriter entries)).1.ColumnIndexes[2]?
        = some ci ∧
      ci.NullCounts = none) ∧
    (∃ ci nc,
      (flushRowGroup demoEnc (writeAll demoEnc entryWriter entries)).1.ColumnIndexes[3]?
        = some ci ∧
      ci.NullCounts = some nc ∧ nc.sum = 0) := by
  have hw : entryWriter.AtRowGroupStart entryHandler :=
    NewJSONWriter_at_row_group_start (fun _ => (some entryHandler, none)) "s" entryHandler
      bufferFile 1 rfl bufferFile_accepts
  have hacc : ∀ rec ∈ entries, ∃ ts, marshal entryHandler.Leaves rec = .ok ts := by
    intro rec hrec
    simp only [entries, List.mem_cons, List.mem_singleton, List.not_mem_nil, or_false] at hrec
    rcases hrec with rfl | rfl | rfl <;> exact ⟨_, rfl⟩
  obtain ⟨hok, _, hstop, hleaf⟩ :=
    null_counts_of_row_group demoEnc entryWriter entryHandler entries hw (List.cons_ne_nil _ _)
      hacc (fun _ => by decide)
  refine ⟨hw, hacc, hok, hstop.1, ?_, ?_, ?_⟩
  · obtain ⟨ci, hci, _, hset⟩ := hleaf 0 (int64Leaf "x" .OPTIONAL false) rfl
    obtain ⟨nc, hnc, _, _, _, hrec, _, _⟩ := hset rfl
    exact ⟨ci, nc, hci, hnc, by rw [hrec rfl]; rfl, hrec rfl⟩
  · obtain ⟨ci, hci, hunset, _⟩ := hleaf 2 (int64Leaf "z" .OPTIONAL true) rfl
    exact ⟨ci, hci, hunset rfl⟩
  · obtain ⟨ci, hci, _, hset⟩ := hleaf 3 (int64Leaf "u" .REQUIRED false) rfl
    obtain ⟨nc, hnc, _, _, _, _, hreq, _⟩ := hset rfl
    exact ⟨ci, nc, hci, hnc, (hreq (by decide)).1⟩

/-- C7, as stated, fails on two leaves of one row group of one record. The
record's list `xs` has two items without `v`, so the leaf `xs.v`, under a
repeated node, gets two null triples: its null counts add up to 2, while it is
null in 1 record. The record has no group `g`, so the leaf `g.u`, REQUIRED
under an optional group, gets a null triple: its null counts add up to 1, not
to 0. -/
theorem null_counts_differ_from_null_records :
    nestedHandler.Leaves = [leafRepeated, leafRequiredInOptional] ∧
    leafRepeated.omitstats = false ∧ leafRequiredInOptional.omitstats = false ∧
    nestedWriter.AtRowGroupStart nestedHandler ∧
    (Write demoEnc nestedWriter recTwoNulls).2 = none ∧
    (flushRowGroup demoEnc (writeAll demoEnc nestedWriter [recTwoNulls])).2 = none ∧
    (flushRowGroup demoEnc (writeAll demoEnc nestedWriter [recTwoNulls])).1.ColumnIndexes.map
        (fun ci => ci.NullCounts) = [some [2], some [1]] ∧
    (flushRowGroup demoEnc (writeAll demoEnc nestedWriter [recTwoNulls])).1.Footer.map
        (fun f => f.RowGroups.map (fun rg => rg.NumRows)) = some [1] ∧
    [recTwoNulls].countP (resolvesNull leafRepeated.path) = 1 ∧
    leafRequiredInOptional.path.getLast? = some ("u", .REQUIRED) ∧
    leafRequiredInOptional.maxR = 0 ∧
    [recTwoNulls].countP (resolvesNull leafRequiredInOptional.path) = 1 :=
  ⟨rfl, rfl, rfl,
    NewJSONWriter_at_row_group_start (fun _ => (some nestedHandler, none)) "s" nestedHandler
      bufferFile 1 rfl bufferFile_accepts,
    rfl, rfl, rfl, rfl, rfl, rfl, rfl, rfl⟩

theorem chunkPages_nonempty (enc : Encoders) (l : LeafInfo) (pageSize : Int)
    (ts : List Triple) : ∀ p ∈ chunkPages enc l pageSize ts, p ≠ [] := by
  intro p hp
  have := slicePages_nonempty enc l pageSize ts [] 0 [] p hp
  exact this

/-- C8 (amended). On a writer at the start of a row group, with the column
index enabled and a sink that accepts writes in full, let the records `recs`
of one row group be offered to `Write`, all accepted by the marshaller, and the
row group be flushed, by the last `Write` or by the flush `WriteStop` starts
with. `WriteStop` succeeds and hands the sink, after the row group, the column
indexes the writer holds after the flush, one block each in order. For the
leaf at position `i` of the schema the writer holds, after the flush, the
`ColumnIndex` of its chunk. The pages of the chunk are the triples the records
give the leaf, in order, cut into non-empty pages; `NullPages`, `MinValues`
and `MaxValues` have one entry per page, and `NullCounts` too when set. Page
`j` is a null page exactly when all of its
triples are null, and then `MinValues[j]` and `MaxValues[j]` are empty. A page
that is not a null page has a non-null value, and its `MinValues[j]` and
`MaxValues[j]` are what the statistics encoder gives for its non-null values,
unless the leaf is marked `omitstats` or `omit_min_max`: then they are empty.
So for such a page both are non-empty exactly when the leaf has neither mark
and the encoder gives non-empty bytes for both, and both are empty exactly when
the leaf has a mark or the encoder gives no bytes for either. -/
theorem column_index_of_row_group {σ : Type} (enc : Encoders) (w : ParquetWriter σ)
    (sh : SchemaHandler) (recs : List Node) (hw : w.AtRowGroupStart sh) (hne : recs ≠ [])
    (hacc : ∀ rec ∈ recs, ∃ ts, marshal sh.Leaves rec = .ok ts)
    (hone : recs.dropLast ≠ [] → totalSize enc recs.dropLast < w.RowGroupSize)
    (i : Nat) (l : LeafInfo) (hl : sh.Leaves[i]? = some l) :
    (flushRowGroup enc (writeAll enc w recs)).2 = none ∧
    ((WriteStop enc (writeAll enc w recs)).2 = none ∧
      ∃ cs f,
        (flushRowGroup enc (writeAll enc w recs)).1.PFile.map (fun p => p.calls) = some cs ∧
        (WriteStop enc (writeAll enc w recs)).1.Footer = some f ∧
        (WriteStop enc (writeAll enc w recs)).1.PFile.map (fun p => p.calls) =
          some (cs ++
            (flushRowGroup enc (writeAll enc w recs)).1.ColumnIndexes.map
              enc.columnIndexBytes ++
            (flushRowGroup enc (writeAll enc w recs)).1.OffsetIndexes.map
              enc.offsetIndexBytes ++
            [enc.footerBytes f, le32 (enc.footerBytes f).length, PAR1])) ∧
    (chunkPages enc l w.PageSize (leafStream l recs)).flatten = leafStream l recs ∧
    ∃ ci, (flushRowGroup enc (writeAll enc w recs)).1.ColumnIndexes[w.ColumnIndexes.length + i]?
        = some ci ∧
      ci.NullPages.length = (chunkPages enc l w.PageSize (leafStream l recs)).length ∧
      ci.MinValues.length = ci.NullPages.length ∧
      ci.MaxValues.length = ci.NullPages.length ∧
      (∀ nc, ci.NullCounts = some nc → nc.length = ci.NullPages.length) ∧
      ∀ (j : Nat) (page : List Triple),
        (chunkPages enc l w.PageSize (leafStream l recs))[j]? = some page →
        ∃ np mn mx,
          ci.NullPages[j]? = some np ∧ ci.MinValues[j]? = some mn ∧
          ci.MaxValues[j]? = some mx ∧
          page ≠ [] ∧
          (np = true ↔ ∀ t ∈ page, t.value = none) ∧
          (np = true → mn = [] ∧ mx = []) ∧
          (np = false → pageValues page ≠ [] ∧
            (mn, mx) =
              if l.omitstats = true ∨ l.omitMinMax = true then ([], [])
              else enc.minMaxBytes l.physType (pageValues page)) ∧
          (np = false →
            ((mn ≠ [] ∧ mx ≠ []) ↔
              (l.omitstats = false ∧ l.omitMinMax = false ∧
                (enc.minMaxBytes l.physType (pageValues page)).1 ≠ [] ∧
                (enc.minMaxBytes l.physType (pageValues page)).2 ≠ []))) ∧
          (np = false →
            ((mn = [] ∧ mx = []) ↔
              (l.omitstats = true ∨ l.omitMinMax = true ∨
                ((enc.minMaxBytes l.physType (pageValues page)).1 = [] ∧
                 (enc.minMaxBytes l.physType (pageValues page)).2 = [])))) := by
  have hflush := row_group_flush enc w sh recs hw hne hacc hone
  refine ⟨by rw [hflush], row_group_stop enc w sh recs hw hne hacc hone,
    chunkPages_flatten enc l w.PageSize (leafStream l recs), _,
    row_group_index_at enc w sh recs hw hne hacc hone i l hl, ?_, ?_, ?_, ?_, ?_⟩
  · simp [buildColumnIndex]
  · simp [buildColumnIndex]
  · simp [buildColumnIndex]
  · intro nc hnc
    simp only [buildColumnIndex] at hnc ⊢
    split at hnc
    · cases hnc
    · simp only [Option.some.injEq] at hnc
      subst hnc
      simp
  · intro j page hpage
    have hmm : isNullPage page = false →
        pageMinMax enc l page =
          if l.omitstats = true ∨ l.omitMinMax = true then ([], [])
          else enc.minMaxBytes l.physType (pageValues page) := by
      intro hf
      unfold pageMinMax
      by_cases hflag : l.omitstats = true ∨ l.omitMinMax = true
      · rw [if_pos (Or.inr hflag), if_pos hflag]
      · rw [if_neg hflag, if_neg]
        rintro (h | h)
        · rw [hf] at h
          cases h
        · exact hflag h
    refine ⟨isNullPage page, (pageMinMax enc l page).1, (pageMinMax enc l page).2, ?_, ?_, ?_,
      chunkPages_nonempty enc l w.PageSize (leafStream l recs) page (List.getElem?_mem hpage),
      isNullPage_iff page, ?_, ?_, ?_, ?_⟩
    · simp [buildColumnIndex, List.getElem?_map, hpage]
    · simp [buildColumnIndex, List.getElem?_map, hpage]
    · simp [buildColumnIndex, List.getElem?_map, hpage]
    · intro hnp
      simp [pageMinMax, hnp]
    · intro hf
      exact ⟨pageValues_ne_nil page hf, hmm hf⟩
    · intro hf
      rw [hmm hf]
      by_cases hflag : l.omitstats = true ∨ l.omitMinMax = true
      · rw [if_pos hflag]
        constructor
        · intro h
          exact absurd rfl h.1
        · rintro ⟨h1, h2, _⟩
          rcases hflag with h | h
          · rw [h1] at h
            cases h
          · rw [h2] at h
            cases h
      · rw [if_neg hflag]
        constructor
        · intro h
          refine ⟨?_, ?_, h.1, h.2⟩
          · cases ho : l.omitstats with
            | false => rfl
            | true => exact absurd (Or.inl ho) hflag
          · cases hm : l.omitMinMax with
            | false => rfl
            | true => exact absurd (Or.inr hm) hflag
        · rintro ⟨_, _, h3, h4⟩
          exact ⟨h3, h4⟩
    · intro hf
      rw [hmm hf]
      by_cases hflag : l.omitstats = true ∨ l.omitMinMax = true
      · rw [if_pos hflag]
        constructor
        · intro _
          rcases hflag with h | h
          · exact Or.inl h
          · exact Or.inr (Or.inl h)
        · intro _
          exact ⟨rfl, rfl⟩
      · rw [if_neg hflag]
        constructor
        · intro h
          exact Or.inr (Or.inr h)
        · rintro (h | h | h)
          · exact absurd (Or.inl h) hflag
          · exact absurd (Or.inr h) hflag
          · exact h

/-- Witness of C8: four records for the optional INT64 leaf `x`, the values 5
and -3 and two nulls, at a page size of 15 and with the encoder that writes
the values as they are. The first page holds the two values: it is not a null
page, and its minimum and maximum are the eight bytes of -3 and of 5. The
second page holds the two nulls: it is a null page, with no bytes. -/
theorem column_index_of_row_group_witness :
    smallPageWriter.AtRowGroupStart demoHandler ∧
    (∀ rec ∈ recsMinMax, ∃ ts, marshal demoHandler.Leaves rec = .ok ts) ∧
    chunkPages rawEnc leafX smallPageWriter.PageSize (leafStream leafX recsMinMax) =
      [[⟨some (.I64 5), 0, 1⟩, ⟨some (.I64 (-3)), 0, 1⟩], [⟨none, 0, 0⟩, ⟨none, 0, 0⟩]] ∧
    ∃ ci,
      (flushRowGroup rawEnc (writeAll rawEnc smallPageWriter recsMinMax)).1.ColumnIndexes[0]?
        = some ci ∧
      ci.NullPages.length = 2 ∧
      (∃ mn mx, ci.NullPages[0]? = some false ∧ ci.MinValues[0]? = some mn ∧
        ci.MaxValues[0]? = some mx ∧
        mn = [253, 255, 255, 255, 255, 255, 255, 255] ∧ mx = [5, 0, 0, 0, 0, 0, 0, 0] ∧
        mn ≠ [] ∧ mx ≠ []) ∧
      (∃ mn mx, ci.NullPages[1]? = some true ∧ ci.MinValues[1]? = some mn ∧
        ci.MaxValues[1]? = some mx ∧ mn = [] ∧ mx = []) := by
  have hw : smallPageWriter.AtRowGroupStart demoHandler :=
    NewJSONWriter_at_row_group_start demoParse "s" demoHandler bufferFile 1 rfl
      bufferFile_accepts
  have hacc : ∀ rec ∈ recsMinMax, ∃ ts, marshal demoHandler.Leaves rec = .ok ts := by
    intro rec hrec
    simp only [recsMinMax, List.mem_cons, List.mem_singleton, List.not_mem_nil, or_false]
      at hrec
    rcases hrec with rfl | rfl | rfl | rfl <;> exact ⟨_, rfl⟩
  obtain ⟨_, _, _, ci, hci, hlen, _, _, _, hpage⟩ :=
    column_index_of_row_group rawEnc smallPageWriter demoHandler recsMinMax hw
      (List.cons_ne_nil _ _) hacc (fun _ => by decide) 0 leafX rfl
  refine ⟨hw, hacc, rfl, ci, hci, hlen, ?_, ?_⟩
  · obtain ⟨np, mn, mx, h1, h2, h3, _, hiff, _, hval, hnon, _⟩ :=
      hpage 0 [⟨some (.I64 5), 0, 1⟩, ⟨some (.I64 (-3)), 0, 1⟩] rfl
    have hnp : np = false := by
      cases np with
      | false => rfl
      | true =>
        have := hiff.1 rfl ⟨some (.I64 5), 0, 1⟩ (List.mem_cons_self _ _)
        cases this
    subst hnp
    have hmm := (hval rfl).2
    have hmn : mn = [253, 255, 255, 255, 255, 255, 255, 255] := congrArg Prod.fst hmm
    have hmx : mx = [5, 0, 0, 0, 0, 0, 0, 0] := congrArg Prod.snd hmm
    exact ⟨mn, mx, h1, h2, h3, hmn, hmx, by rw [hmn]; decide, by rw [hmx]; decide⟩
  · obtain ⟨np, mn, mx, h1, h2, h3, _, hiff, hemp, _⟩ :=
      hpage 1 [⟨none, 0, 0⟩, ⟨none, 0, 0⟩] rfl
    have hnp : np = true := by
      apply hiff.2
      intro t ht
      simp only [List.mem_cons, List.mem_singleton, List.not_mem_nil, or_false] at ht
      rcases ht with rfl | rfl <;> rfl
    subst hnp
    exact ⟨mn, mx, h1, h2, h3, (hemp rfl).1, (hemp rfl).2⟩

/-- C8, as stated, fails on the three chunks of one row group of one record,
with the encoder that writes byte arrays as they are. Each chunk has one page,
which holds a value and is not a null page, and the page's `MinValues` and
`MaxValues` entries are empty all the same: for `z`, marked `omitstats`; for
`s`, marked `omit_min_max`; and for `b`, with neither mark, whose value is the
empty string. For the value of `z` and `s` the encoder does give bytes. -/
theorem non_null_pages_without_min_max :
    flagsHandler.Leaves =
      [bytesLeaf "z" true false, bytesLeaf "s" false true, bytesLeaf "b" false false] ∧
    flagsWriter.AtRowGroupStart flagsHandler ∧
    (Write rawEnc flagsWriter recFlags).2 = none ∧
    (flushRowGroup rawEnc (writeAll rawEnc flagsWriter [recFlags])).2 = none ∧
    flagsHandler.Leaves.map (fun l =>
        chunkPages rawEnc l flagsWriter.PageSize (leafStream l [recFlags])) =
      [[[⟨some (.Bytes [97, 98]), 0, 1⟩]], [[⟨some (.Bytes [97, 98]), 0, 1⟩]],
       [[⟨some (.Bytes []), 0, 1⟩]]] ∧
    (flushRowGroup rawEnc (writeAll rawEnc flagsWriter [recFlags])).1.ColumnIndexes.map
        (fun ci => (ci.NullPages, ci.MinValues, ci.MaxValues)) =
      [([false], [[]], [[]]), ([false], [[]], [[]]), ([false], [[]], [[]])] ∧
    rawEnc.minMaxBytes .BYTE_ARRAY [.Bytes [97, 98]] = ([97, 98], [97, 98]) ∧
    rawEnc.minMaxBytes .BYTE_ARRAY [.Bytes []] = ([], []) :=
  ⟨rfl,
    NewJSONWriter_at_row_group_start (fun _ => (some flagsHandler, none)) "s" flagsHandler
      bufferFile 1 rfl bufferFile_accepts,
    rfl, rfl, rfl, rfl, rfl, rfl⟩

/-! ## The options and the footer of the new writer -/

theorem applyOpts_nil {σ : Type} (pw : ParquetWriter σ) : applyOpts [] pw = pw := rfl

theorem applyOpts_cons {σ : Type} (o : ParquetWriterOption σ)
    (rest : List (ParquetWriterOption σ)) (pw : ParquetWriter σ) :
    applyOpts (o :: rest) pw = applyOpts rest (o pw) := rfl

theorem applyOpts_append {σ : Type} (pre : List (ParquetWriterOption σ))
    (o : ParquetWriterOption σ) (pw : ParquetWriter σ) :
    applyOpts (pre ++ [o]) pw = o (applyOpts pre pw) := by
  simp [applyOpts, List.foldl_append]

/-- C11. On a schema that parses to a handler with element list `E`, the
writer the constructor returns has a footer with `Version = 1` and `Schema`
equal to `E`: the same length and, position by position, the same elements,
nothing added, dropped or reordered, whatever the options, the sink and `np`
are. -/
theorem NewJSONWriter_footer_schema {σ : Type}
    (parse : String → Option SchemaHandler × Option Error) (js : String) (sh : SchemaHandler)
    (E : List SchemaElement)
    (pfile : ParquetFile σ) (np : Int) (opts : List (ParquetWriterOption σ))
    (hparse : parse js = (some sh, none)) (hE : sh.SchemaElements = E) :
    ∃ r jw f, NewJSONWriter parse js pfile np opts = some r ∧ r.res = some jw ∧
      jw.ParquetWriter.Footer = some f ∧
      f.Version = 1 ∧
      f.Schema = E ∧
      f.Schema.length = E.length ∧
      ∀ i : Nat, f.Schema[i]? = E[i]? := by
  subst hE
  exact ⟨_, _, _, NewJSONWriter_parsed parse js sh pfile np opts hparse, rfl, rfl, rfl, rfl, rfl,
    fun _ => rfl⟩

/-- Witness of C11: an option that had put another footer on the writer. -/
theorem NewJSONWriter_footer_schema_witness :
    ∃ r jw f,
      NewJSONWriter demoParse "s" bufferFile 5 [overwriteOption, WithDisableColumnIndex false]
        = some r ∧
      r.res = some jw ∧
      jw.ParquetWriter.Footer = some f ∧
      f.Version = 1 ∧
      f.Schema = demoHandler.SchemaElements ∧
      f.Schema.length = demoHandler.SchemaElements.length ∧
      ∀ i : Nat, f.Schema[i]? = demoHandler.SchemaElements[i]? :=
  NewJSONWriter_footer_schema demoParse "s" demoHandler demoHandler.SchemaElements bufferFile 5
    [overwriteOption, WithDisableColumnIndex false] (by decide) rfl

/-- C12. The constructor applies the options, in the order given, to the new
writer and assigns its defaults afterwards. So on a schema that parses, for
every option list, the writer returned has `PageSize = 8192`,
`RowGroupSize = 134217728`, `CompressionType = SNAPPY`, `NP = np`,
`Offset = 4` and as `PFile` the sink passed in (as the header write left it,
with the behaviour it came with), whatever the options wrote to those fields;
and every field the constructor does not assign has the value it has on the
new writer after the options were applied one after the other, which for a
list ending in an option `o` is the value `o` left. -/
theorem NewJSONWriter_options_then_defaults {σ : Type}
    (parse : String → Option SchemaHandler × Option Error) (js : String) (sh : SchemaHandler)
    (pfile : ParquetFile σ) (np : Int) (opts : List (ParquetWriterOption σ))
    (hparse : parse js = (some sh, none)) :
    ∃ r jw, NewJSONWriter parse js pfile np opts = some r ∧ r.res = some jw ∧
      jw.ParquetWriter.PageSize = 8192 ∧
      jw.ParquetWriter.RowGroupSize = 134217728 ∧
      jw.ParquetWriter.CompressionType = .SNAPPY ∧
      jw.ParquetWriter.NP = np ∧
      jw.ParquetWriter.Offset = 4 ∧
      jw.ParquetWriter.PFile = some r.pfile ∧
      r.pfile = (pfile.Write PAR1).1 ∧
      r.pfile.write = pfile.write ∧
      jw.ParquetWriter.ColumnIndexes = (applyOpts opts ParquetWriter.zero).ColumnIndexes ∧
      jw.ParquetWriter.OffsetIndexes = (applyOpts opts ParquetWriter.zero).OffsetIndexes ∧
      jw.ParquetWriter.DisableColumnIndex
        = (applyOpts opts ParquetWriter.zero).DisableColumnIndex ∧
      jw.ParquetWriter.State = (applyOpts opts ParquetWriter.zero).State ∧
      jw.ParquetWriter.Bufs = (applyOpts opts ParquetWriter.zero).Bufs ∧
      jw.ParquetWriter.BufRows = (applyOpts opts ParquetWriter.zero).BufRows ∧
      jw.ParquetWriter.BufSize = (applyOpts opts ParquetWriter.zero).BufSize ∧
      (opts = [] → applyOpts opts (ParquetWriter.zero : ParquetWriter σ) = ParquetWriter.zero) ∧
      (∀ (pre : List (ParquetWriterOption σ)) (o : ParquetWriterOption σ), opts = pre ++ [o] →
        applyOpts opts ParquetWriter.zero = o (applyOpts pre ParquetWriter.zero)) := by
  refine ⟨_, _, NewJSONWriter_parsed parse js sh pfile np opts hparse, rfl, rfl, rfl, rfl, rfl,
    rfl, rfl, rfl, rfl, rfl, rfl, rfl, rfl, rfl, rfl, rfl, ?_, ?_⟩
  · intro h
    subst h
    rfl
  · intro pre o h
    subst h
    exact applyOpts_append pre o _

/-- Witness of C12: an option that overwrites the defaulted fields and sets
the index flag, followed by the option that clears the flag: the defaults
stand, and the flag is as the last option left it. -/
theorem NewJSONWriter_options_then_defaults_witness :
    ∃ r jw,
      NewJSONWriter demoParse "s" bufferFile 5 [overwriteOption, WithDisableColumnIndex false]
        = some r ∧
      r.res = some jw ∧
      jw.ParquetWriter.PageSize = 8192 ∧
      jw.ParquetWriter.RowGroupSize = 134217728 ∧
      jw.ParquetWriter.CompressionType = .SNAPPY ∧
      jw.ParquetWriter.NP = 5 ∧
      jw.ParquetWriter.Offset = 4 ∧
      jw.ParquetWriter.PFile = some r.pfile ∧
      r.pfile.write = bufferFile.write ∧
      r.pfile.state = [80, 65, 82, 49] ∧
      jw.ParquetWriter.DisableColumnIndex = false := by
  obtain ⟨r, jw, h1, h2, h3, h4, h5, h6, h7, h8, h9, h10, _, _, h13, _⟩ :=
    NewJSONWriter_options_then_defaults demoParse "s" demoHandler bufferFile 5
      [overwriteOption, WithDisableColumnIndex false] (by decide)
  refine ⟨r, jw, h1, h2, h3, h4, h5, h6, h7, h8, h10, ?_, ?_⟩
  · rw [h9]
    rfl
  · rw [h13]
    rfl

/-- The order of the options matters: with the two options of the witness in
the other order the flag is set. -/
theorem options_in_order :
    (openedWriter (NewJSONWriter demoParse "s" bufferFile 5
      [overwriteOption, WithDisableColumnIndex false])).DisableColumnIndex = false ∧
    (openedWriter (NewJSONWriter demoParse "s" bufferFile 5
      [WithDisableColumnIndex false, overwriteOption])).DisableColumnIndex = true :=
  ⟨rfl, rfl⟩

end ParquetGo
